import Mathlib

set_option maxRecDepth 8000

/-!
Verification of the BPE tokenizer in `src/bpe_tokenizer.py`.

Shallow embedding conventions:
* A Python `str` is modelled as a `List Nat` of Unicode code points; a
  `bytes` value is a `List Nat` whose elements are below 256.
* Python `dict`s are modelled as insertion-ordered association lists
  (`List (key × value)`); assignment `d[k] = v` overwrites in place when the
  key is present (CPython keeps the original insertion position) and appends
  otherwise (`dinsert`).
* `text.encode("utf-8")` is `utf8Encode`; `bytes.decode("utf-8",
  errors="replace")` is `utf8DecodeLossy`, which performs the maximal-subpart
  substitution CPython implements (Unicode's recommended practice).
* Fallible operations return `Except Err`, with `Err` following the spec's
  error taxonomy (§7).
* The `while` loops of `_merge` and `encode` are embedded with an explicit
  fuel argument that provably dominates the number of iterations, so every
  definition is executable by kernel reduction.
-/

namespace BPETok

/-- Error kinds of the tokenizer operations (spec §7 taxonomy). -/
inductive Err where
  | invalidConfig
  | untrained
  | unknownToken
  | formatError
  | ioError
deriving DecidableEq

/-- Association-list lookup, modelling Python dict indexing (first entry with
the given key; keys are unique in every dict this file builds). -/
def alookup {α β : Type} [DecidableEq α] : List (α × β) → α → Option β
  | [], _ => none
  | e :: rest, k => if e.1 = k then some e.2 else alookup rest k

/-- Python dict assignment `d[k] = v`: overwrite in place when the key is
present (CPython keeps the original insertion position), append otherwise. -/
def dinsert {α β : Type} [DecidableEq α] (d : List (α × β)) (k : α) (v : β) : List (α × β) :=
  if (alookup d k).isSome then d.map (fun e => if e.1 = k then (k, v) else e) else d ++ [(k, v)]

/-- The adjacent pairs `zip(ids, ids[1:])` of a token sequence. -/
def adjPairs : List Nat → List (Nat × Nat)
  | [] => []
  | a :: rest =>
    match rest with
    | [] => []
    | b :: _ => (a, b) :: adjPairs rest

/-- Loop body of `BPETokenizer._get_stats`:
`counts[pair] = counts.get(pair, 0) + 1`. -/
def bump (counts : List ((Nat × Nat) × Nat)) (pair : Nat × Nat) : List ((Nat × Nat) × Nat) :=
  dinsert counts pair ((alookup counts pair).getD 0 + 1)

/-- `BPETokenizer._get_stats`: count the frequency of consecutive token pairs,
in first-occurrence order (Python dicts preserve insertion order). -/
def getStats (ids : List Nat) : List ((Nat × Nat) × Nat) :=
  (adjPairs ids).foldl bump []

/-- The `while i < len(ids)` loop of `BPETokenizer._merge`.  `i` is the scan
position; `fuel` dominates the number of remaining iterations (each iteration
advances `i` by 1 or 2, so `ids.length` steps from `i = 0` always suffice).
Output elements are emitted in order (consing here corresponds to
`newids.append`). -/
def mergeLoop (ids : List Nat) (pair : Nat × Nat) (idx : Nat) : Nat → Nat → List Nat
  | 0, _ => []
  | fuel + 1, i =>
    if i < ids.length then
      if i < ids.length - 1 ∧ ids.getD i 0 = pair.1 ∧ ids.getD (i + 1) 0 = pair.2 then
        idx :: mergeLoop ids pair idx fuel (i + 2)
      else
        ids.getD i 0 :: mergeLoop ids pair idx fuel (i + 1)
    else []

/-- `BPETokenizer._merge`: replace occurrences of `pair` by `idx`. -/
def merge (ids : List Nat) (pair : Nat × Nat) (idx : Nat) : List Nat :=
  mergeLoop ids pair idx ids.length 0

/-- Modelled from the spec (§4.2 Merger): replace every non-overlapping,
left-to-right occurrence of the adjacent pair by a single instance of the
replacement ID; after a replacement, scanning resumes past both consumed
positions, so an occurrence starting at the second consumed position is
skipped.  Used as the specification side of claim C4 and as a
structurally-recursive description of `merge` in later proofs. -/
def mergeSpec (pair : Nat × Nat) (idx : Nat) : List Nat → List Nat
  | [] => []
  | [a] => [a]
  | a :: b :: rest2 =>
    if a = pair.1 ∧ b = pair.2 then idx :: mergeSpec pair idx rest2
    else a :: mergeSpec pair idx (b :: rest2)
termination_by l => l.length
decreasing_by all_goals (simp only [List.length_cons]; omega)

/-- `max(stats, key=stats.get)` over the entries after the first: Python `max`
keeps the current best unless a strictly greater key value appears, so the
first entry with the maximal count wins. -/
def maxEntry (e : (Nat × Nat) × Nat) (l : List ((Nat × Nat) × Nat)) : (Nat × Nat) × Nat :=
  l.foldl (fun best x => if best.2 < x.2 then x else best) e

/-- The pair selected by `max(stats, key=stats.get)` in `train`.  Python `max`
raises on an empty dict; `train` guards with `if not stats: break`, so the
default `(0, 0)` is unreachable there. -/
def maxPair (stats : List ((Nat × Nat) × Nat)) : Nat × Nat :=
  match stats with
  | [] => (0, 0)
  | e :: rest => (maxEntry e rest).1

/-- Comparison of encode-priority keys `self.merges.get(p, float("inf"))`,
with `none` standing for infinity. -/
def optLt : Option Nat → Option Nat → Bool
  | some a, some b => decide (a < b)
  | some _, none => true
  | none, _ => false

/-- `min(stats, key=...)` over the entries after the first: Python `min` keeps
the current best unless a strictly smaller key value appears. -/
def minEntry (merges : List ((Nat × Nat) × Nat)) (e : (Nat × Nat) × Nat)
    (l : List ((Nat × Nat) × Nat)) : (Nat × Nat) × Nat :=
  l.foldl (fun best x => if optLt (alookup merges x.1) (alookup merges best.1) then x else best) e

/-- The pair selected by `min(stats, key=lambda p: self.merges.get(p, float("inf")))`
in `encode`.  `encode` only calls this when the sequence has length at least 2,
so `stats` is non-empty and the default is unreachable. -/
def minPair (merges : List ((Nat × Nat) × Nat)) (stats : List ((Nat × Nat) × Nat)) : Nat × Nat :=
  match stats with
  | [] => (0, 0)
  | e :: rest => (minEntry merges e rest).1

/-- UTF-8 encoding of one code point (CPython's encoder for code points below
`0x110000`; `str.encode` is only applied to genuine strings, whose code points
satisfy that bound). -/
def utf8EncodeChar (c : Nat) : List Nat :=
  if c < 0x80 then [c]
  else if c < 0x800 then [0xC0 + c / 64, 0x80 + c % 64]
  else if c < 0x10000 then [0xE0 + c / 4096, 0x80 + c / 64 % 64, 0x80 + c % 64]
  else [0xF0 + c / 262144, 0x80 + c / 4096 % 64, 0x80 + c / 64 % 64, 0x80 + c % 64]

/-- `text.encode("utf-8")` over a list of code points. -/
def utf8Encode (cps : List Nat) : List Nat :=
  (cps.map utf8EncodeChar).flatten

/-- A Unicode scalar value: encodable to UTF-8 and recoverable by decoding
(code point below 0x110000 and not a surrogate). -/
def ValidCp (c : Nat) : Prop := c < 0xD800 ∨ (0xE000 ≤ c ∧ c < 0x110000)

instance decValidCp (c : Nat) : Decidable (ValidCp c) :=
  inferInstanceAs (Decidable (c < 0xD800 ∨ (0xE000 ≤ c ∧ c < 0x110000)))

/-- Worker of `bytes.decode("utf-8", errors="replace")`: CPython's UTF-8
decoder with the replacement error handler.  It substitutes one U+FFFD
(65533) for every maximal subpart of an ill-formed subsequence (Unicode's
recommended practice): an invalid leading byte consumes exactly itself, and a
valid prefix of a multi-byte sequence that cannot be completed consumes
exactly that prefix.  Every step consumes at least one byte, so fuel equal to
the byte count dominates the iteration count and the fuel-exhaustion branch
is unreachable from `utf8DecodeLossy` (fuel-insensitivity is proved below). -/
def utf8DecodeLossyF : Nat → List Nat → List Nat
  | 0, _ => []
  | fuel + 1, l =>
    match l with
    | [] => []
    | b :: rest =>
      if b < 0x80 then b :: utf8DecodeLossyF fuel rest
      else if b < 0xC2 then 0xFFFD :: utf8DecodeLossyF fuel rest
      else if b < 0xE0 then
        match rest with
        | [] => [0xFFFD]
        | c1 :: rest2 =>
          if 0x80 ≤ c1 ∧ c1 < 0xC0 then
            ((b - 0xC0) * 64 + (c1 - 0x80)) :: utf8DecodeLossyF fuel rest2
          else 0xFFFD :: utf8DecodeLossyF fuel rest
      else if b < 0xF0 then
        match rest with
        | [] => [0xFFFD]
        | c1 :: rest2 =>
          if (if b = 0xE0 then 0xA0 else 0x80) ≤ c1 ∧ c1 < (if b = 0xED then 0xA0 else 0xC0) then
            match rest2 with
            | [] => [0xFFFD]
            | c2 :: rest3 =>
              if 0x80 ≤ c2 ∧ c2 < 0xC0 then
                ((b - 0xE0) * 4096 + (c1 - 0x80) * 64 + (c2 - 0x80)) :: utf8DecodeLossyF fuel rest3
              else 0xFFFD :: utf8DecodeLossyF fuel rest2
          else 0xFFFD :: utf8DecodeLossyF fuel rest
      else if b < 0xF5 then
        match rest with
        | [] => [0xFFFD]
        | c1 :: rest2 =>
          if (if b = 0xF0 then 0x90 else 0x80) ≤ c1 ∧ c1 < (if b = 0xF4 then 0x90 else 0xC0) then
            match rest2 with
            | [] => [0xFFFD]
            | c2 :: rest3 =>
              if 0x80 ≤ c2 ∧ c2 < 0xC0 then
                match rest3 with
                | [] => [0xFFFD]
                | c3 :: rest4 =>
                  if 0x80 ≤ c3 ∧ c3 < 0xC0 then
                    ((b - 0xF0) * 262144 + (c1 - 0x80) * 4096 + (c2 - 0x80) * 64 + (c3 - 0x80)) ::
                      utf8DecodeLossyF fuel rest4
                  else 0xFFFD :: utf8DecodeLossyF fuel rest3
              else 0xFFFD :: utf8DecodeLossyF fuel rest2
          else 0xFFFD :: utf8DecodeLossyF fuel rest
      else 0xFFFD :: utf8DecodeLossyF fuel rest

/-- `bytes.decode("utf-8", errors="replace")`. -/
def utf8DecodeLossy (bytes : List Nat) : List Nat :=
  utf8DecodeLossyF bytes.length bytes

/-- The mutable state of a `BPETokenizer` instance plus the training loop's
working token sequence `ids` (local to `train` in the source). -/
structure TrainState where
  vocab : List (Nat × List Nat)
  merges : List ((Nat × Nat) × Nat)
  ids : List Nat
deriving DecidableEq

/-- `{idx: bytes([idx]) for idx in range(256)}`. -/
def byteVocab : List (Nat × List Nat) :=
  (List.range 256).map fun b => (b, [b])

/-- The `for i in range(num_merges)` loop of `BPETokenizer.train`: the first
argument is the remaining iteration count, `i` the Python loop index.
`vocab[pair[0]]` and `vocab[pair[1]]` always exist when reached (every token
of `ids` is a vocab key, an invariant proved below), so the `getD []` default
is unreachable. -/
def trainLoop : Nat → Nat → TrainState → TrainState
  | 0, _, st => st
  | n + 1, i, st =>
    if getStats st.ids = [] then st
    else
      trainLoop n (i + 1)
        { vocab := dinsert st.vocab (256 + i)
            ((alookup st.vocab (maxPair (getStats st.ids)).1).getD [] ++
              (alookup st.vocab (maxPair (getStats st.ids)).2).getD []),
          merges := dinsert st.merges (maxPair (getStats st.ids)) (256 + i),
          ids := merge st.ids (maxPair (getStats st.ids)) (256 + i) }

/-- `BPETokenizer.train` (§4.3): reject `vocab_size < 256`, otherwise start
from the 256 raw-byte vocabulary, an empty merge table and the UTF-8 bytes of
the text, and run `vocab_size - 256` merge iterations. -/
def train (text : List Nat) (vocabSize : Nat) : Except Err TrainState :=
  if vocabSize < 256 then .error .invalidConfig
  else .ok (trainLoop (vocabSize - 256) 0
    { vocab := byteVocab, merges := [], ids := utf8Encode text })

/-- The `while len(tokens) >= 2` loop of `BPETokenizer.encode`.  Each
continuing iteration merges a pair that occurs in the sequence, shortening it
by at least one, so fuel equal to the initial length dominates the number of
iterations and the fuel-exhaustion branch is unreachable from `encode`. -/
def encodeLoop (merges : List ((Nat × Nat) × Nat)) : Nat → List Nat → List Nat
  | 0, tokens => tokens
  | fuel + 1, tokens =>
    if 2 ≤ tokens.length then
      match alookup merges (minPair merges (getStats tokens)) with
      | none => tokens
      | some idx => encodeLoop merges fuel (merge tokens (minPair merges (getStats tokens)) idx)
    else tokens

/-- `BPETokenizer.encode`: fail with the untrained-state error when the merge
table is empty, otherwise run the merge loop on the UTF-8 bytes of the text. -/
def encode (merges : List ((Nat × Nat) × Nat)) (text : List Nat) : Except Err (List Nat) :=
  if merges = [] then .error .untrained
  else .ok (encodeLoop merges (utf8Encode text).length (utf8Encode text))

/-- `b"".join(self.vocab[idx] for idx in ids)`: a missing ID raises (KeyError,
modelled as the unknown-token error of the spec taxonomy). -/
def decodeBytes (vocab : List (Nat × List Nat)) : List Nat → Except Err (List Nat)
  | [] => .ok []
  | t :: rest =>
    match alookup vocab t with
    | none => .error .unknownToken
    | some bs =>
      match decodeBytes vocab rest with
      | .ok tail => .ok (bs ++ tail)
      | .error e => .error e

/-- `BPETokenizer.decode`: fail when the vocabulary is empty, otherwise
concatenate the byte expansions and decode them as UTF-8 with replacement. -/
def decode (vocab : List (Nat × List Nat)) (ids : List Nat) : Except Err (List Nat) :=
  if vocab = [] then .error .untrained
  else
    match decodeBytes vocab ids with
    | .ok bytes => .ok (utf8DecodeLossy bytes)
    | .error e => .error e

/-- Concatenation of the vocabulary expansions of a token sequence (total
description of `decodeBytes` on sequences whose tokens all have entries). -/
def expand (vocab : List (Nat × List Nat)) (ids : List Nat) : List Nat :=
  (ids.map fun t => (alookup vocab t).getD []).flatten

/-- `True` exactly on `Except.ok` results. -/
def isOkE {α : Type} : Except Err α → Bool
  | .ok _ => true
  | .error _ => false

/-- Decimal digits (as character codes) of `n`, most significant first, with a
fuel argument dominating the recursion depth (`n` itself always does). -/
def decAux : Nat → Nat → List Nat
  | 0, _ => []
  | fuel + 1, n => if n < 10 then [48 + n] else decAux fuel (n / 10) ++ [48 + n % 10]

/-- `str(n)` for a non-negative integer, as a list of character codes. -/
def natToDecChars (n : Nat) : List Nat := decAux (n + 1) n

/-- Value of a decimal digit character, if it is one. -/
def decDigit (c : Nat) : Option Nat :=
  if 48 ≤ c ∧ c ≤ 57 then some (c - 48) else none

/-- Accumulating parse of a decimal digit string. -/
def parseDecAux : List Nat → Nat → Option Nat
  | [], acc => some acc
  | c :: rest, acc =>
    match decDigit c with
    | some d => parseDecAux rest (acc * 10 + d)
    | none => none

/-- `int(s)` as used by `load` on keys produced by `str`: a non-empty string
of decimal digits (the sign/whitespace forms Python also accepts never arise
from `str` of a non-negative integer). -/
def decCharsToNat (s : List Nat) : Option Nat :=
  if s = [] then none else parseDecAux s 0

/-- Lowercase hex digit character of a value below 16. -/
def hexDigitChar (d : Nat) : Nat :=
  if d < 10 then 48 + d else 87 + d

/-- `v.hex()`: two lowercase hex digits per byte. -/
def bytesToHex (bs : List Nat) : List Nat :=
  (bs.map fun b => [hexDigitChar (b / 16), hexDigitChar (b % 16)]).flatten

/-- Value of a hex digit character (`bytes.fromhex` accepts both cases). -/
def hexVal (c : Nat) : Option Nat :=
  if 48 ≤ c ∧ c ≤ 57 then some (c - 48)
  else if 97 ≤ c ∧ c ≤ 102 then some (c - 87)
  else if 65 ≤ c ∧ c ≤ 70 then some (c - 55)
  else none

/-- `bytes.fromhex(s)`: an even-length hex string, two digits per byte. -/
def hexCharsToBytes : List Nat → Option (List Nat)
  | [] => some []
  | c1 :: rest =>
    match rest with
    | [] => none
    | c2 :: rest2 =>
      match hexVal c1, hexVal c2, hexCharsToBytes rest2 with
      | some h, some l, some bs => some ((h * 16 + l) :: bs)
      | _, _, _ => none

/-- `s.split(',')` on a list of character codes (44 is the comma). -/
def splitComma : List Nat → List (List Nat)
  | [] => [[]]
  | c :: rest =>
    if c = 44 then [] :: splitComma rest
    else
      match splitComma rest with
      | [] => [[c]]
      | s :: ss => (c :: s) :: ss

/-- `tuple(map(int, k.split(',')))` restricted to the two-component keys that
`save` produces (Python would build an n-tuple for other shapes; those never
arise from `save` and cannot inhabit the pair-keyed table modelled here). -/
def parseMergeKey (s : List Nat) : Option (Nat × Nat) :=
  match splitComma s with
  | [a, b] =>
    match decCharsToNat a, decCharsToNat b with
    | some x, some y => some (x, y)
    | _, _ => none
  | _ => none

/-- The vocabulary document written by `save`:
`{str(k): v.hex() for k, v in self.vocab.items()}`. -/
def saveVocabDoc (vocab : List (Nat × List Nat)) : List (List Nat × List Nat) :=
  vocab.map fun e => (natToDecChars e.1, bytesToHex e.2)

/-- The merge-table document written by `save`:
`{f"{k[0]},{k[1]}": v for k, v in self.merges.items()}`. -/
def saveMergesDoc (merges : List ((Nat × Nat) × Nat)) : List (List Nat × Nat) :=
  merges.map fun e => (natToDecChars e.1.1 ++ 44 :: natToDecChars e.1.2, e.2)

/-- Entry-wise conversion in `load`'s vocabulary comprehension
`{int(k): bytes.fromhex(v) for ...}`; any conversion failure aborts the whole
comprehension before `self.vocab` is assigned. -/
def parseVocabEntries : List (List Nat × List Nat) → Option (List (Nat × List Nat))
  | [] => some []
  | e :: rest =>
    match decCharsToNat e.1, hexCharsToBytes e.2, parseVocabEntries rest with
    | some k, some v, some tail => some ((k, v) :: tail)
    | _, _, _ => none

/-- `load`'s vocabulary comprehension: convert every entry, then build the
dict in document order. -/
def parseVocabDoc (doc : List (List Nat × List Nat)) : Option (List (Nat × List Nat)) :=
  match parseVocabEntries doc with
  | some entries => some (entries.foldl (fun d e => dinsert d e.1 e.2) [])
  | none => none

/-- Entry-wise conversion in `load`'s merges comprehension
`{tuple(map(int, k.split(','))): v for ...}`. -/
def parseMergeEntries : List (List Nat × Nat) → Option (List ((Nat × Nat) × Nat))
  | [] => some []
  | e :: rest =>
    match parseMergeKey e.1, parseMergeEntries rest with
    | some k, some tail => some ((k, e.2) :: tail)
    | _, _ => none

/-- `load`'s merges comprehension: convert every entry, then build the dict in
document order. -/
def parseMergesDoc (doc : List (List Nat × Nat)) : Option (List ((Nat × Nat) × Nat)) :=
  match parseMergeEntries doc with
  | some entries => some (entries.foldl (fun d e => dinsert d e.1 e.2) [])
  | none => none

/-- The persistent state of a `BPETokenizer` instance. -/
structure Tok where
  vocab : List (Nat × List Nat)
  merges : List ((Nat × Nat) × Nat)
deriving DecidableEq

/-- `tokenizer.train(...)` as a state transformer: the `vocab_size` check
raises before any mutation; on success both tables are replaced (the working
`ids` list is local and discarded). -/
def trainOp (st : Tok) (text : List Nat) (vocabSize : Nat) : Except Err Unit × Tok :=
  match train text vocabSize with
  | .error e => (.error e, st)
  | .ok ts => (.ok (), { vocab := ts.vocab, merges := ts.merges })

/-- `tokenizer.encode(...)` as a state transformer: it never mutates state. -/
def encodeOp (st : Tok) (text : List Nat) : Except Err (List Nat) × Tok :=
  (encode st.merges text, st)

/-- `tokenizer.decode(...)` as a state transformer: it never mutates state. -/
def decodeOp (st : Tok) (ids : List Nat) : Except Err (List Nat) × Tok :=
  (decode st.vocab ids, st)

/-- `tokenizer.save(...)` as a state transformer: it serializes both tables
and never mutates state; `ioFail` models an unwritable destination. -/
def saveOp (st : Tok) (ioFail : Bool) : Except Err (List (List Nat × List Nat) × List (List Nat × Nat)) × Tok :=
  (if ioFail then .error .ioError else .ok (saveVocabDoc st.vocab, saveMergesDoc st.merges), st)

/-- `tokenizer.load(...)` as a state transformer.  The source reads and parses
the vocabulary file and assigns `self.vocab`, and only then reads and parses
the merges file and assigns `self.merges`; a failure in the merges phase
therefore leaves the instance with the new vocabulary but the old merge table.
`vfile`/`mfile` are the parsed JSON documents, or `Except.error` for an
unreadable file. -/
def loadOp (st : Tok) (vfile : Except Unit (List (List Nat × List Nat)))
    (mfile : Except Unit (List (List Nat × Nat))) : Except Err Unit × Tok :=
  match vfile with
  | .error _ => (.error .ioError, st)
  | .ok vdoc =>
    match parseVocabDoc vdoc with
    | none => (.error .formatError, st)
    | some v =>
      match mfile with
      | .error _ => (.error .ioError, { st with vocab := v })
      | .ok mdoc =>
        match parseMergesDoc mdoc with
        | none => (.error .formatError, { st with vocab := v })
        | some m => (.ok (), { vocab := v, merges := m })

/-- Index of the first occurrence of `x` in `l` (the position of a pair's
first adjacent occurrence when applied to `adjPairs`). -/
def firstIdx {α : Type} [DecidableEq α] : List α → α → Nat
  | [], _ => 0
  | a :: rest, x => if a = x then 0 else firstIdx rest x + 1

/-- Invariant of the training loop, tying the three components of the loop
state together; established at initialization and preserved by every merge
iteration. -/
structure TInv (st : TrainState) : Prop where
  vals : st.merges.map (fun e => e.2) = List.range' 256 st.merges.length
  ids_lt : ∀ t ∈ st.ids, t < 256 + st.merges.length
  vkeys_lt : ∀ e ∈ st.vocab, e.1 < 256 + st.merges.length
  byte_entries : ∀ b, b < 256 → alookup st.vocab b = some [b]
  mkeys_lt : ∀ e ∈ st.merges, e.1.1 < e.2 ∧ e.1.2 < e.2
  good : ∀ e ∈ st.merges, ∃ x y, alookup st.vocab e.1.1 = some x ∧
    alookup st.vocab e.1.2 = some y ∧ alookup st.vocab e.2 = some (x ++ y)
  ids_dom : ∀ t ∈ st.ids, (alookup st.vocab t).isSome
  noadj : ∀ e ∈ st.merges, e.1 ∉ adjPairs st.ids

/-! ### Association-list lemmas -/

theorem alookup_append_of_some {α β : Type} [DecidableEq α] {d1 : List (α × β)} {k : α} {v : β}
    (d2 : List (α × β)) (h : alookup d1 k = some v) : alookup (d1 ++ d2) k = some v := by
  induction d1 with
  | nil => simp [alookup] at h
  | cons e rest ih =>
    rw [alookup] at h
    by_cases he : e.1 = k
    · simpa [alookup, he] using h
    · rw [if_neg he] at h
      simpa [alookup, he] using ih h

theorem alookup_append_of_none {α β : Type} [DecidableEq α] {d1 : List (α × β)} {k : α}
    (d2 : List (α × β)) (h : alookup d1 k = none) : alookup (d1 ++ d2) k = alookup d2 k := by
  induction d1 with
  | nil => simp [alookup]
  | cons e rest ih =>
    rw [alookup] at h
    by_cases he : e.1 = k
    · simp [he] at h
    · rw [if_neg he] at h
      simpa [alookup, he] using ih h

theorem alookup_mem {α β : Type} [DecidableEq α] {d : List (α × β)} {k : α} {v : β}
    (h : alookup d k = some v) : (k, v) ∈ d := by
  induction d with
  | nil => simp [alookup] at h
  | cons e rest ih =>
    rw [alookup] at h
    by_cases he : e.1 = k
    · rw [if_pos he] at h
      obtain ⟨e1, e2⟩ := e
      obtain rfl : e1 = k := he
      obtain rfl : e2 = v := Option.some_inj.mp h
      exact List.mem_cons_self _ _
    · rw [if_neg he] at h
      exact List.mem_cons_of_mem _ (ih h)

theorem alookup_eq_none {α β : Type} [DecidableEq α] {d : List (α × β)} {k : α}
    (h : ∀ e ∈ d, e.1 ≠ k) : alookup d k = none := by
  induction d with
  | nil => rfl
  | cons e rest ih =>
    rw [alookup, if_neg (h e (List.mem_cons_self e rest))]
    exact ih fun x hx => h x (List.mem_cons_of_mem _ hx)

theorem alookup_isSome_mem_keys {α β : Type} [DecidableEq α] {d : List (α × β)} {k : α}
    (h : (alookup d k).isSome) : k ∈ d.map Prod.fst := by
  obtain ⟨v, hv⟩ := Option.isSome_iff_exists.mp h
  exact List.mem_map.mpr ⟨(k, v), alookup_mem hv, rfl⟩

theorem alookup_isSome_of_mem_keys {α β : Type} [DecidableEq α] {d : List (α × β)} {k : α}
    (h : k ∈ d.map Prod.fst) : (alookup d k).isSome := by
  induction d with
  | nil => simp at h
  | cons e rest ih =>
    rw [alookup]
    by_cases he : e.1 = k
    · simp [he]
    · have : k ∈ rest.map Prod.fst := by
        rcases List.mem_map.mp h with ⟨x, hx, hk⟩
        rcases List.mem_cons.mp hx with rfl | hx
        · exact absurd hk he
        · exact List.mem_map.mpr ⟨x, hx, hk⟩
      simpa [he] using ih this

theorem ne_nil_of_alookup_some {α β : Type} [DecidableEq α] {d : List (α × β)} {k : α} {v : β}
    (h : alookup d k = some v) : d ≠ [] := by
  intro hd
  rw [hd] at h
  simp [alookup] at h

/-! ### dinsert lemmas -/

theorem dinsert_of_none {α β : Type} [DecidableEq α] {d : List (α × β)} {k : α} (v : β)
    (h : alookup d k = none) : dinsert d k v = d ++ [(k, v)] := by
  simp [dinsert, h]

theorem map_fst_update {α β : Type} [DecidableEq α] (d : List (α × β)) (k : α) (v : β) :
    (d.map fun e => if e.1 = k then (k, v) else e).map Prod.fst = d.map Prod.fst := by
  induction d with
  | nil => rfl
  | cons e rest ih =>
    by_cases he : e.1 = k <;> simp [he, ih]

theorem keys_dinsert_of_some {α β : Type} [DecidableEq α] {d : List (α × β)} {k : α} (v : β)
    (h : (alookup d k).isSome) : (dinsert d k v).map Prod.fst = d.map Prod.fst := by
  rw [dinsert, if_pos h, map_fst_update]

theorem keys_dinsert_of_none {α β : Type} [DecidableEq α] {d : List (α × β)} {k : α} (v : β)
    (h : alookup d k = none) : (dinsert d k v).map Prod.fst = d.map Prod.fst ++ [k] := by
  rw [dinsert_of_none v h]
  simp

theorem alookup_update_self {α β : Type} [DecidableEq α] (d : List (α × β)) (k : α) (v : β)
    (h : (alookup d k).isSome) :
    alookup (d.map fun e => if e.1 = k then (k, v) else e) k = some v := by
  induction d with
  | nil => simp [alookup] at h
  | cons e rest ih =>
    by_cases he : e.1 = k
    · simp [alookup, he]
    · rw [alookup, if_neg he] at h
      simpa [alookup, he] using ih h

theorem alookup_dinsert_self {α β : Type} [DecidableEq α] (d : List (α × β)) (k : α) (v : β) :
    alookup (dinsert d k v) k = some v := by
  rw [dinsert]
  by_cases h : (alookup d k).isSome
  · rw [if_pos h]
    exact alookup_update_self d k v h
  · rw [if_neg h]
    have hn : alookup d k = none := Option.not_isSome_iff_eq_none.mp h
    rw [alookup_append_of_none _ hn, alookup, if_pos rfl]

theorem alookup_update_ne {α β : Type} [DecidableEq α] (d : List (α × β)) {k k' : α} (v : β)
    (h : k' ≠ k) :
    alookup (d.map fun e => if e.1 = k then (k, v) else e) k' = alookup d k' := by
  have hk : k ≠ k' := fun hh => h hh.symm
  induction d with
  | nil => rfl
  | cons e rest ih =>
    by_cases he : e.1 = k
    · have h2 : e.1 ≠ k' := by rw [he]; exact hk
      simp [alookup, he, h2, hk, ih]
    · simp [alookup, he, ih]

theorem alookup_dinsert_ne {α β : Type} [DecidableEq α] (d : List (α × β)) {k k' : α} (v : β)
    (h : k' ≠ k) : alookup (dinsert d k v) k' = alookup d k' := by
  rw [dinsert]
  by_cases hs : (alookup d k).isSome
  · rw [if_pos hs]
    exact alookup_update_ne d v h
  · rw [if_neg hs]
    have hk : k ≠ k' := fun hh => h hh.symm
    cases hv : alookup d k' with
    | some w => rw [alookup_append_of_some _ hv]
    | none =>
      rw [alookup_append_of_none _ hv]
      simp [alookup, hk]

/-! ### adjPairs lemmas -/

theorem adjPairs_eq_zip : ∀ ids : List Nat, adjPairs ids = ids.zip ids.tail
  | [] => rfl
  | [_] => rfl
  | a :: b :: rest => by
    rw [adjPairs]
    simpa [List.zip] using adjPairs_eq_zip (b :: rest)

theorem adjPairs_mem_fst : ∀ {ids : List Nat} {x y : Nat}, (x, y) ∈ adjPairs ids → x ∈ ids ∧ y ∈ ids
  | [], x, y, h => by simp [adjPairs] at h
  | [_], x, y, h => by simp [adjPairs] at h
  | a :: b :: rest, x, y, h => by
    rw [adjPairs] at h
    rcases List.mem_cons.mp h with heq | hmem
    · have h1 : x = a := congrArg Prod.fst heq
      have h2 : y = b := congrArg Prod.snd heq
      subst h1
      subst h2
      exact ⟨List.mem_cons_self _ _, List.mem_cons_of_mem _ (List.mem_cons_self _ _)⟩
    · have := adjPairs_mem_fst hmem
      exact ⟨List.mem_cons_of_mem _ this.1, List.mem_cons_of_mem _ this.2⟩

theorem adjPairs_cons_subset {c : Nat} {l : List Nat} {q : Nat × Nat} (h : q ∈ adjPairs l) :
    q ∈ adjPairs (c :: l) := by
  cases l with
  | nil => simp [adjPairs] at h
  | cons d l' =>
    rw [adjPairs]
    exact List.mem_cons_of_mem _ h

theorem adjPairs_ne_nil {l : List Nat} (h : 2 ≤ l.length) : adjPairs l ≠ [] := by
  match l with
  | [] => simp at h
  | [_] => simp at h
  | a :: b :: rest => rw [adjPairs]; simp

theorem adjPairs_head {a b : Nat} (rest : List Nat) : (a, b) ∈ adjPairs (a :: b :: rest) := by
  rw [adjPairs]
  exact List.mem_cons_self _ _

/-! ### mergeSpec lemmas -/

theorem mergeSpec_mem {p : Nat × Nat} {idx : Nat} {l : List Nat} :
    ∀ t ∈ mergeSpec p idx l, t ∈ l ∨ t = idx := by
  induction l using mergeSpec.induct p idx with
  | case1 => simp [mergeSpec]
  | case2 a => simp [mergeSpec]
  | case3 a b rest2 hc ih =>
    intro t ht
    rw [mergeSpec, if_pos hc] at ht
    rcases List.mem_cons.mp ht with rfl | hm
    · exact Or.inr rfl
    · rcases ih t hm with h | h
      · exact Or.inl (by simp [h])
      · exact Or.inr h
  | case4 a b rest2 hc ih =>
    intro t ht
    rw [mergeSpec, if_neg hc] at ht
    rcases List.mem_cons.mp ht with rfl | hm
    · exact Or.inl (List.mem_cons_self _ _)
    · rcases ih t hm with h | h
      · exact Or.inl (List.mem_cons_of_mem _ h)
      · exact Or.inr h

theorem mergeSpec_length_le {p : Nat × Nat} {idx : Nat} :
    ∀ l : List Nat, (mergeSpec p idx l).length ≤ l.length := by
  intro l
  induction l using mergeSpec.induct p idx with
  | case1 => simp [mergeSpec]
  | case2 a => simp [mergeSpec]
  | case3 a b rest2 hc ih => rw [mergeSpec, if_pos hc]; simp; omega
  | case4 a b rest2 hc ih => rw [mergeSpec, if_neg hc]; simpa using ih

theorem mergeSpec_length_lt {p : Nat × Nat} {idx : Nat} :
    ∀ l : List Nat, p ∈ adjPairs l → (mergeSpec p idx l).length < l.length := by
  intro l
  induction l using mergeSpec.induct p idx with
  | case1 => simp [adjPairs]
  | case2 a => simp [adjPairs]
  | case3 a b rest2 hc ih =>
    intro _
    rw [mergeSpec, if_pos hc]
    have := @mergeSpec_length_le p idx rest2
    simp
    omega
  | case4 a b rest2 hc ih =>
    intro hp
    rw [mergeSpec, if_neg hc]
    rw [adjPairs] at hp
    rcases List.mem_cons.mp hp with heq | hm
    · exact absurd ⟨(congrArg Prod.fst heq).symm, (congrArg Prod.snd heq).symm⟩ hc
    · simpa using ih hm

theorem mergeSpec_ne_nil {p : Nat × Nat} {idx : Nat} :
    ∀ l : List Nat, l ≠ [] → mergeSpec p idx l ≠ [] := by
  intro l
  induction l using mergeSpec.induct p idx with
  | case1 => simp
  | case2 a => intro _; simp [mergeSpec]
  | case3 a b rest2 hc ih => intro _; rw [mergeSpec, if_pos hc]; simp
  | case4 a b rest2 hc ih => intro _; rw [mergeSpec, if_neg hc]; simp

theorem mergeSpec_cons_head (p : Nat × Nat) (idx a : Nat) (l : List Nat) :
    (∃ t, mergeSpec p idx (a :: l) = a :: t) ∨ (∃ t, mergeSpec p idx (a :: l) = idx :: t) := by
  cases l with
  | nil => exact Or.inl ⟨[], by rw [mergeSpec]⟩
  | cons b rest2 =>
    by_cases hc : a = p.1 ∧ b = p.2
    · exact Or.inr ⟨_, by rw [mergeSpec, if_pos hc]⟩
    · exact Or.inl ⟨_, by rw [mergeSpec, if_neg hc]⟩

theorem adjPairs_mergeSpec {p : Nat × Nat} {idx : Nat} :
    ∀ l : List Nat, ∀ x y : Nat, (x, y) ∈ adjPairs (mergeSpec p idx l) →
      x ≠ idx → y ≠ idx → (x, y) ∈ adjPairs l := by
  intro l
  induction l using mergeSpec.induct p idx with
  | case1 => simp [mergeSpec, adjPairs]
  | case2 a => simp [mergeSpec, adjPairs]
  | case3 a b rest2 hc ih =>
    intro x y hxy hx hy
    rw [mergeSpec, if_pos hc] at hxy
    rcases hM : mergeSpec p idx rest2 with _ | ⟨m0, M⟩
    · rw [hM] at hxy
      simp [adjPairs] at hxy
    · rw [hM, adjPairs] at hxy
      rcases List.mem_cons.mp hxy with heq | hm
      · have h1 : x = idx := congrArg Prod.fst heq
        exact absurd h1 hx
      · have := ih x y (by rw [hM]; exact hm) hx hy
        exact adjPairs_cons_subset (adjPairs_cons_subset this)
  | case4 a b rest2 hc ih =>
    intro x y hxy hx hy
    rw [mergeSpec, if_neg hc] at hxy
    rcases hM : mergeSpec p idx (b :: rest2) with _ | ⟨m0, M⟩
    · exact absurd hM (mergeSpec_ne_nil _ (by simp))
    · rw [hM, adjPairs] at hxy
      rcases List.mem_cons.mp hxy with heq | hm
      · have h1 : x = a := congrArg Prod.fst heq
        have h2 : y = m0 := congrArg Prod.snd heq
        subst h1
        subst h2
        rcases mergeSpec_cons_head p idx b rest2 with ⟨t, ht⟩ | ⟨t, ht⟩
        · rw [ht] at hM
          injection hM with hb _
          subst hb
          exact adjPairs_head rest2
        · rw [ht] at hM
          injection hM with hb _
          exact absurd hb.symm hy
      · have := ih x y (by rw [hM]; exact hm) hx hy
        exact adjPairs_cons_subset this

theorem mergeSpec_self_not_adj {p : Nat × Nat} {idx : Nat} (hp1 : p.1 ≠ idx) (hp2 : p.2 ≠ idx) :
    ∀ l : List Nat, p ∉ adjPairs (mergeSpec p idx l) := by
  intro l
  induction l using mergeSpec.induct p idx with
  | case1 => simp [mergeSpec, adjPairs]
  | case2 a => simp [mergeSpec, adjPairs]
  | case3 a b rest2 hc ih =>
    rw [mergeSpec, if_pos hc]
    intro hmem
    rcases hM : mergeSpec p idx rest2 with _ | ⟨m0, M⟩
    · rw [hM] at hmem
      simp [adjPairs] at hmem
    · rw [hM, adjPairs] at hmem
      rcases List.mem_cons.mp hmem with heq | hm
      · exact hp1 (congrArg Prod.fst heq)
      · exact ih (hM ▸ hm)
  | case4 a b rest2 hc ih =>
    rw [mergeSpec, if_neg hc]
    intro hmem
    rcases hM : mergeSpec p idx (b :: rest2) with _ | ⟨m0, M⟩
    · exact absurd hM (mergeSpec_ne_nil _ (by simp))
    · rw [hM, adjPairs] at hmem
      rcases List.mem_cons.mp hmem with heq | hm
      · have ha : p.1 = a := congrArg Prod.fst heq
        have hm0 : p.2 = m0 := congrArg Prod.snd heq
        rcases mergeSpec_cons_head p idx b rest2 with ⟨t, ht⟩ | ⟨t, ht⟩
        · rw [ht] at hM
          injection hM with hb _
          exact hc ⟨ha.symm, hb.trans hm0.symm⟩
        · rw [ht] at hM
          injection hM with hb _
          exact hp2 (hm0.trans hb.symm)
      · exact ih (hM ▸ hm)

theorem expand_nil (vocab : List (Nat × List Nat)) : expand vocab [] = [] := rfl

theorem expand_cons (vocab : List (Nat × List Nat)) (t : Nat) (rest : List Nat) :
    expand vocab (t :: rest) = (alookup vocab t).getD [] ++ expand vocab rest := by
  simp [expand]

theorem expand_mergeSpec {vocab : List (Nat × List Nat)} {p : Nat × Nat} {idx : Nat}
    {x y : List Nat} (hx : alookup vocab p.1 = some x) (hy : alookup vocab p.2 = some y)
    (hv : alookup vocab idx = some (x ++ y)) :
    ∀ l : List Nat, expand vocab (mergeSpec p idx l) = expand vocab l := by
  intro l
  induction l using mergeSpec.induct p idx with
  | case1 => rw [mergeSpec]
  | case2 a => rw [mergeSpec]
  | case3 a b rest2 hc ih =>
    obtain ⟨rfl, rfl⟩ := hc
    rw [mergeSpec, if_pos ⟨rfl, rfl⟩, expand_cons, ih, expand_cons, expand_cons, hv, hx, hy]
    simp [List.append_assoc]
  | case4 a b rest2 hc ih =>
    rw [mergeSpec, if_neg hc, expand_cons, expand_cons, ih]

/-! ### merge agrees with mergeSpec -/

theorem drop_eq_getD_cons : ∀ (l : List Nat) (i : Nat), i < l.length →
    l.drop i = l.getD i 0 :: l.drop (i + 1)
  | [], i, h => by simp at h
  | a :: rest, 0, _ => by simp
  | a :: rest, i + 1, h => by
    have := drop_eq_getD_cons rest i (by simpa using h)
    simpa using this

theorem mergeLoop_eq_mergeSpec (ids : List Nat) (p : Nat × Nat) (idx : Nat) :
    ∀ fuel i, ids.length ≤ i + fuel → mergeLoop ids p idx fuel i = mergeSpec p idx (ids.drop i) := by
  intro fuel
  induction fuel with
  | zero =>
    intro i h
    rw [mergeLoop, List.drop_eq_nil_of_le (by omega), mergeSpec]
  | succ fuel ih =>
    intro i h
    by_cases hi : i < ids.length
    · rw [mergeLoop, if_pos hi]
      by_cases hi1 : i + 1 < ids.length
      · rw [drop_eq_getD_cons ids i hi, drop_eq_getD_cons ids (i + 1) hi1]
        by_cases hc : ids.getD i 0 = p.1 ∧ ids.getD (i + 1) 0 = p.2
        · rw [if_pos ⟨by omega, hc.1, hc.2⟩, mergeSpec, if_pos hc, ih (i + 2) (by omega)]
        · have hcond : ¬ (i < ids.length - 1 ∧ ids.getD i 0 = p.1 ∧ ids.getD (i + 1) 0 = p.2) := by
            intro hx
            exact hc hx.2
          rw [if_neg hcond, mergeSpec, if_neg hc, ih (i + 1) (by omega),
            drop_eq_getD_cons ids (i + 1) hi1]
      · have hlast : ids.length = i + 1 := by omega
        have hcond : ¬ (i < ids.length - 1 ∧ ids.getD i 0 = p.1 ∧ ids.getD (i + 1) 0 = p.2) := by
          intro hx
          omega
        rw [if_neg hcond, drop_eq_getD_cons ids i hi, ih (i + 1) (by omega),
          List.drop_eq_nil_of_le (by omega)]
        rw [mergeSpec, mergeSpec]
    · rw [mergeLoop, if_neg hi, List.drop_eq_nil_of_le (by omega), mergeSpec]

theorem merge_eq_mergeSpec (ids : List Nat) (p : Nat × Nat) (idx : Nat) :
    merge ids p idx = mergeSpec p idx ids := by
  rw [merge, mergeLoop_eq_mergeSpec ids p idx ids.length 0 (by omega), List.drop_zero]

/-! ### optLt, firstIdx, range and byteVocab lemmas -/

theorem optLt_irrefl (a : Option Nat) : optLt a a = false := by
  cases a <;> simp [optLt]

theorem optLt_trans {a b c : Option Nat} (h1 : optLt a b = true) (h2 : optLt b c = true) :
    optLt a c = true := by
  cases a <;> cases b <;> cases c <;> simp_all [optLt] <;> omega

theorem optLt_asymm_trans {a b c : Option Nat} (h1 : optLt a b = false) (h2 : optLt b c = false) :
    optLt a c = false := by
  cases a <;> cases b <;> cases c <;> simp_all [optLt] <;> omega

theorem firstIdx_append_left {α : Type} [DecidableEq α] {l1 : List α} (l2 : List α) {x : α}
    (h : x ∈ l1) : firstIdx (l1 ++ l2) x = firstIdx l1 x := by
  induction l1 with
  | nil => simp at h
  | cons a rest ih =>
    by_cases ha : a = x
    · simp [firstIdx, ha]
    · have : x ∈ rest := by
        rcases List.mem_cons.mp h with rfl | hx
        · exact absurd rfl ha
        · exact hx
      simp [firstIdx, ha, ih this]

theorem firstIdx_lt_length {α : Type} [DecidableEq α] {l : List α} {x : α} (h : x ∈ l) :
    firstIdx l x < l.length := by
  induction l with
  | nil => simp at h
  | cons a rest ih =>
    by_cases ha : a = x
    · simp [firstIdx, ha]
    · have hxr : x ∈ rest := by
        rcases List.mem_cons.mp h with rfl | hx
        · exact absurd rfl ha
        · exact hx
      have := ih hxr
      simp [firstIdx, ha]
      omega

theorem firstIdx_append_fresh {α : Type} [DecidableEq α] {l1 : List α} (l2 : List α) {x : α}
    (h : x ∉ l1) : firstIdx (l1 ++ x :: l2) x = l1.length := by
  induction l1 with
  | nil => simp [firstIdx]
  | cons a rest ih =>
    have ha : a ≠ x := fun hh => h (hh ▸ List.mem_cons_self a rest)
    have : x ∉ rest := fun hh => h (List.mem_cons_of_mem _ hh)
    simp [firstIdx, ha, ih this]

theorem range'_snoc : ∀ (n s : Nat), List.range' s (n + 1) = List.range' s n ++ [s + n]
  | 0, s => by simp [List.range']
  | n + 1, s => by
    rw [List.range', range'_snoc n (s + 1)]
    simp [List.range']
    omega

theorem mem_range'_bounds : ∀ {n s m : Nat}, m ∈ List.range' s n → s ≤ m ∧ m < s + n := by
  intro n
  induction n with
  | zero => intro s m h; simp [List.range'] at h
  | succ n ih =>
    intro s m h
    rw [List.range'] at h
    rcases List.mem_cons.mp h with rfl | hm
    · omega
    · have := ih hm
      omega

theorem byteVocab_lookup_aux : ∀ (n b : Nat), b < n →
    alookup ((List.range n).map fun i => (i, [i])) b = some [b] := by
  intro n
  induction n with
  | zero => intro b h; omega
  | succ n ih =>
    intro b h
    rw [List.range_succ, List.map_append]
    by_cases hb : b < n
    · exact alookup_append_of_some _ (ih b hb)
    · have hn : b = n := by omega
      rw [hn]
      have hnone : alookup ((List.range n).map fun i => (i, [i])) n = none := by
        apply alookup_eq_none
        intro e he
        rcases List.mem_map.mp he with ⟨i, hi, rfl⟩
        have : i < n := List.mem_range.mp hi
        simp
        omega
      rw [alookup_append_of_none _ hnone]
      simp [alookup]

theorem byteVocab_lookup {b : Nat} (h : b < 256) : alookup byteVocab b = some [b] :=
  byteVocab_lookup_aux 256 b h

/-! ### getStats fold invariants -/

theorem keys_bump_of_some {acc : List ((Nat × Nat) × Nat)} {p : Nat × Nat}
    (h : (alookup acc p).isSome) : (bump acc p).map Prod.fst = acc.map Prod.fst :=
  keys_dinsert_of_some _ h

theorem bump_of_none {acc : List ((Nat × Nat) × Nat)} {p : Nat × Nat}
    (h : alookup acc p = none) : bump acc p = acc ++ [(p, 1)] := by
  rw [bump, dinsert_of_none _ h, h]
  rfl

theorem statsFold_inv (full : List (Nat × Nat)) :
    ∀ (l pre : List (Nat × Nat)) (acc : List ((Nat × Nat) × Nat)),
      full = pre ++ l →
      (∀ k ∈ acc.map Prod.fst, k ∈ pre) →
      (∀ k ∈ pre, k ∈ acc.map Prod.fst) →
      (acc.map Prod.fst).Pairwise (fun a b => firstIdx full a < firstIdx full b) →
      (∀ k ∈ (l.foldl bump acc).map Prod.fst, k ∈ full) ∧
      (∀ k ∈ full, k ∈ (l.foldl bump acc).map Prod.fst) ∧
      ((l.foldl bump acc).map Prod.fst).Pairwise (fun a b => firstIdx full a < firstIdx full b) := by
  intro l
  induction l with
  | nil =>
    intro pre acc hfull h1 h2 h3
    have hpre : full = pre := by simpa using hfull
    subst hpre
    exact ⟨h1, h2, h3⟩
  | cons p l' ih =>
    intro pre acc hfull h1 h2 h3
    rw [List.foldl_cons]
    by_cases hs : (alookup acc p).isSome
    · refine ih (pre ++ [p]) (bump acc p) (by rw [hfull]; simp) ?_ ?_ ?_
      · intro k hk
        rw [keys_bump_of_some hs] at hk
        exact List.mem_append_left _ (h1 k hk)
      · intro k hk
        rw [keys_bump_of_some hs]
        rcases List.mem_append.mp hk with h | h
        · exact h2 k h
        · have hk : k = p := by simpa using h
          subst hk
          exact alookup_isSome_mem_keys hs
      · rw [keys_bump_of_some hs]
        exact h3
    · have hnone : alookup acc p = none := Option.not_isSome_iff_eq_none.mp hs
      have hpnotin : p ∉ pre := fun hp => hs (alookup_isSome_of_mem_keys (h2 p hp))
      have hkeys : (bump acc p).map Prod.fst = acc.map Prod.fst ++ [p] := by
        rw [bump_of_none hnone]
        simp
      refine ih (pre ++ [p]) (bump acc p) (by rw [hfull]; simp) ?_ ?_ ?_
      · intro k hk
        rw [hkeys] at hk
        rcases List.mem_append.mp hk with h | h
        · exact List.mem_append_left _ (h1 k h)
        · have hk : k = p := by simpa using h
          subst hk
          exact List.mem_append_right _ (List.mem_cons_self _ _)
      · intro k hk
        rw [hkeys]
        rcases List.mem_append.mp hk with h | h
        · exact List.mem_append_left _ (h2 k h)
        · have hk : k = p := by simpa using h
          subst hk
          exact List.mem_append_right _ (List.mem_cons_self _ _)
      · rw [hkeys]
        rw [List.pairwise_append]
        refine ⟨h3, List.pairwise_singleton _ _, ?_⟩
        intro a ha b hb
        have hb : b = p := by simpa using hb
        subst hb
        have hapre : a ∈ pre := h1 a ha
        have h4 : firstIdx full a = firstIdx pre a := by
          rw [hfull]
          exact firstIdx_append_left _ hapre
        have h5 : firstIdx full b = pre.length := by
          rw [hfull]
          exact firstIdx_append_fresh _ hpnotin
        have h6 : firstIdx pre a < pre.length := firstIdx_lt_length hapre
        omega

theorem getStats_keys_mem {ids : List Nat} : ∀ e ∈ getStats ids, e.1 ∈ adjPairs ids := by
  intro e he
  have h := (statsFold_inv (adjPairs ids) (adjPairs ids) [] [] (by simp) (by simp) (by simp)
    (by simp)).1
  exact h e.1 (List.mem_map.mpr ⟨e, he, rfl⟩)

theorem getStats_keys_complete {ids : List Nat} :
    ∀ q ∈ adjPairs ids, q ∈ (getStats ids).map Prod.fst := by
  intro q hq
  exact (statsFold_inv (adjPairs ids) (adjPairs ids) [] [] (by simp) (by simp) (by simp)
    (by simp)).2.1 q hq

theorem getStats_pairwise {ids : List Nat} :
    ((getStats ids).map Prod.fst).Pairwise
      (fun a b => firstIdx (adjPairs ids) a < firstIdx (adjPairs ids) b) :=
  (statsFold_inv (adjPairs ids) (adjPairs ids) [] [] (by simp) (by simp) (by simp) (by simp)).2.2

theorem getStats_ne_nil {ids : List Nat} (h : 2 ≤ ids.length) : getStats ids ≠ [] := by
  intro hnil
  match ids, h with
  | a :: b :: rest, _ =>
    have := @getStats_keys_complete (a :: b :: rest) (a, b) (adjPairs_head rest)
    rw [hnil] at this
    simp at this

/-! ### maxEntry and minEntry selection lemmas -/

theorem maxEntry_cons (e x : (Nat × Nat) × Nat) (l : List ((Nat × Nat) × Nat)) :
    maxEntry e (x :: l) = maxEntry (if e.2 < x.2 then x else e) l := rfl

theorem maxEntry_ge_init : ∀ (l : List ((Nat × Nat) × Nat)) (e : (Nat × Nat) × Nat),
    e.2 ≤ (maxEntry e l).2 := by
  intro l
  induction l with
  | nil => intro e; exact Nat.le_refl _
  | cons x l' ih =>
    intro e
    rw [maxEntry_cons]
    by_cases hx : e.2 < x.2
    · rw [if_pos hx]
      exact Nat.le_trans (Nat.le_of_lt hx) (ih x)
    · rw [if_neg hx]
      exact ih e

theorem maxEntry_split : ∀ (l : List ((Nat × Nat) × Nat)) (e : (Nat × Nat) × Nat),
    ∃ L1 L2, e :: l = L1 ++ (maxEntry e l) :: L2 ∧ (∀ x ∈ L1, x.2 < (maxEntry e l).2) ∧
      (∀ x ∈ L2, x.2 ≤ (maxEntry e l).2) := by
  intro l
  induction l with
  | nil => intro e; exact ⟨[], [], rfl, by simp, by simp⟩
  | cons x l' ih =>
    intro e
    rw [maxEntry_cons]
    by_cases hx : e.2 < x.2
    · rw [if_pos hx]
      obtain ⟨L1, L2, hdec, hl1, hl2⟩ := ih x
      refine ⟨e :: L1, L2, ?_, ?_, hl2⟩
      · rw [List.cons_append, ← hdec]
      · intro z hz
        rcases List.mem_cons.mp hz with rfl | hz
        · have := maxEntry_ge_init l' x
          omega
        · exact hl1 z hz
    · rw [if_neg hx]
      obtain ⟨L1, L2, hdec, hl1, hl2⟩ := ih e
      set r := maxEntry e l' with hr
      cases L1 with
      | nil =>
        injection hdec with h1 h2
        refine ⟨[], x :: L2, ?_, by simp, ?_⟩
        · rw [List.nil_append, ← h1, ← h2]
        · intro z hz
          rcases List.mem_cons.mp hz with heq | hz
          · rw [heq, ← h1]
            omega
          · exact hl2 z hz
      | cons w L1' =>
        injection hdec with h1 h2
        have hw : w.2 < r.2 := hl1 w (List.mem_cons_self _ _)
        refine ⟨e :: x :: L1', L2, ?_, ?_, hl2⟩
        · rw [h2]
          simp
        · intro z hz
          rcases List.mem_cons.mp hz with heq | hz
          · rw [heq, h1]
            exact hw
          · rcases List.mem_cons.mp hz with heq | hz
            · have he2 : e.2 < r.2 := by
                rw [h1]
                exact hw
              rw [heq]
              omega
            · exact hl1 z (List.mem_cons_of_mem _ hz)

theorem maxEntry_mem (e : (Nat × Nat) × Nat) (l : List ((Nat × Nat) × Nat)) :
    maxEntry e l ∈ e :: l := by
  obtain ⟨L1, L2, hdec, _, _⟩ := maxEntry_split l e
  rw [hdec]
  exact List.mem_append_right _ (List.mem_cons_self _ _)

theorem minEntry_cons (merges : List ((Nat × Nat) × Nat)) (e x : (Nat × Nat) × Nat)
    (l : List ((Nat × Nat) × Nat)) :
    minEntry merges e (x :: l) =
      minEntry merges (if optLt (alookup merges x.1) (alookup merges e.1) then x else e) l := rfl

theorem minEntry_mem (merges : List ((Nat × Nat) × Nat)) :
    ∀ (l : List ((Nat × Nat) × Nat)) (e : (Nat × Nat) × Nat), minEntry merges e l ∈ e :: l := by
  intro l
  induction l with
  | nil => intro e; exact List.mem_cons_self _ _
  | cons x l' ih =>
    intro e
    rw [minEntry_cons]
    by_cases hx : optLt (alookup merges x.1) (alookup merges e.1)
    · rw [if_pos hx]
      rcases List.mem_cons.mp (ih x) with h | h
      · rw [h]
        exact List.mem_cons_of_mem _ (List.mem_cons_self _ _)
      · exact List.mem_cons_of_mem _ (List.mem_cons_of_mem _ h)
    · rw [if_neg hx]
      rcases List.mem_cons.mp (ih e) with h | h
      · rw [h]
        exact List.mem_cons_self _ _
      · exact List.mem_cons_of_mem _ (List.mem_cons_of_mem _ h)

theorem minEntry_min (merges : List ((Nat × Nat) × Nat)) :
    ∀ (l : List ((Nat × Nat) × Nat)) (e x : (Nat × Nat) × Nat), x ∈ e :: l →
      optLt (alookup merges x.1) (alookup merges (minEntry merges e l).1) = false := by
  intro l
  induction l with
  | nil =>
    intro e x hx
    have hx : x = e := by simpa using hx
    subst hx
    exact optLt_irrefl _
  | cons z l' ih =>
    intro e x hx
    rw [minEntry_cons]
    by_cases hz : optLt (alookup merges z.1) (alookup merges e.1)
    · rw [if_pos hz]
      rcases List.mem_cons.mp hx with heq | hx
      · rw [heq]
        have hzr := ih z z (List.mem_cons_self _ _)
        cases hcon : optLt (alookup merges e.1) (alookup merges (minEntry merges z l').1) with
        | false => rfl
        | true => exact absurd (optLt_trans hz hcon) (by simp [hzr])
      · exact ih z x hx
    · rw [if_neg hz]
      rcases List.mem_cons.mp hx with heq | hx
      · rw [heq]
        exact ih e e (List.mem_cons_self _ _)
      · rcases List.mem_cons.mp hx with heq | hx
        · rw [heq]
          have her := ih e e (List.mem_cons_self _ _)
          have hze : optLt (alookup merges z.1) (alookup merges e.1) = false := by
            simpa using hz
          exact optLt_asymm_trans hze her
        · exact ih e x (List.mem_cons_of_mem _ hx)

/-! ### The training invariant -/

theorem alookup_append_isSome {α β : Type} [DecidableEq α] {d1 : List (α × β)} {k : α}
    (d2 : List (α × β)) (h : (alookup d1 k).isSome) : (alookup (d1 ++ d2) k).isSome := by
  obtain ⟨v, hv⟩ := Option.isSome_iff_exists.mp h
  rw [alookup_append_of_some d2 hv]
  rfl

theorem maxPair_mem_keys {stats : List ((Nat × Nat) × Nat)} (h : stats ≠ []) :
    maxPair stats ∈ stats.map Prod.fst := by
  match stats, h with
  | e :: rest, _ =>
    rw [maxPair]
    exact List.mem_map.mpr ⟨maxEntry e rest, maxEntry_mem e rest, rfl⟩

theorem mem_keys_adjPairs {ids : List Nat} {q : Nat × Nat}
    (h : q ∈ (getStats ids).map Prod.fst) : q ∈ adjPairs ids := by
  rcases List.mem_map.mp h with ⟨e, he, rfl⟩
  exact getStats_keys_mem e he

theorem utf8EncodeChar_lt {c : Nat} (h : c < 1114112) : ∀ b ∈ utf8EncodeChar c, b < 256 := by
  intro b hb
  rw [utf8EncodeChar] at hb
  split_ifs at hb with h1 h2 h3 <;> simp only [List.mem_cons, List.not_mem_nil, or_false] at hb
  · omega
  · rcases hb with rfl | rfl <;> omega
  · rcases hb with rfl | rfl | rfl <;> omega
  · rcases hb with rfl | rfl | rfl | rfl <;> omega

theorem utf8Encode_lt {text : List Nat} (h : ∀ c ∈ text, c < 1114112) :
    ∀ b ∈ utf8Encode text, b < 256 := by
  intro b hb
  rw [utf8Encode] at hb
  rcases List.mem_flatten.mp hb with ⟨l, hl, hbl⟩
  rcases List.mem_map.mp hl with ⟨c, hc, rfl⟩
  exact utf8EncodeChar_lt (h c hc) b hbl

theorem TInv_init {bytes : List Nat} (hb : ∀ t ∈ bytes, t < 256) :
    TInv ⟨byteVocab, [], bytes⟩ := by
  refine ⟨?_, ?_, ?_, ?_, ?_, ?_, ?_, ?_⟩
  · rfl
  · intro t ht
    have := hb t ht
    simpa using this
  · intro e he
    rcases List.mem_map.mp he with ⟨i, hi, rfl⟩
    have : i < 256 := List.mem_range.mp hi
    simpa using this
  · intro b hb256
    exact byteVocab_lookup hb256
  · intro e he
    simp at he
  · intro e he
    simp at he
  · intro t ht
    rw [byteVocab_lookup (hb t ht)]
    rfl
  · intro e he
    simp at he

theorem TInv_step {vocab : List (Nat × List Nat)} {merges : List ((Nat × Nat) × Nat)}
    {ids : List Nat} (h : TInv ⟨vocab, merges, ids⟩) {pair : Nat × Nat} {idx : Nat}
    (hadj : pair ∈ adjPairs ids) (hidx : idx = 256 + merges.length) {x y : List Nat}
    (hx : alookup vocab pair.1 = some x) (hy : alookup vocab pair.2 = some y) :
    TInv ⟨vocab ++ [(idx, x ++ y)], merges ++ [(pair, idx)], mergeSpec pair idx ids⟩ := by
  have hvals : merges.map (fun e => e.2) = List.range' 256 merges.length := h.vals
  have hids_lt : ∀ t ∈ ids, t < 256 + merges.length := h.ids_lt
  have hvkeys_lt : ∀ e ∈ vocab, e.1 < 256 + merges.length := h.vkeys_lt
  have hbyte : ∀ b, b < 256 → alookup vocab b = some [b] := h.byte_entries
  have hmkeys_lt : ∀ e ∈ merges, e.1.1 < e.2 ∧ e.1.2 < e.2 := h.mkeys_lt
  have hgood : ∀ e ∈ merges, ∃ a b, alookup vocab e.1.1 = some a ∧
      alookup vocab e.1.2 = some b ∧ alookup vocab e.2 = some (a ++ b) := h.good
  have hids_dom : ∀ t ∈ ids, (alookup vocab t).isSome := h.ids_dom
  have hnoadj : ∀ e ∈ merges, e.1 ∉ adjPairs ids := h.noadj
  have hcomp := adjPairs_mem_fst (x := pair.1) (y := pair.2) hadj
  have hp1 : pair.1 < 256 + merges.length := hids_lt _ hcomp.1
  have hp2 : pair.2 < 256 + merges.length := hids_lt _ hcomp.2
  have hvnone : alookup vocab idx = none := by
    apply alookup_eq_none
    intro e he heq
    have h2 := hvkeys_lt e he
    rw [heq] at h2
    omega
  have hne1 : pair.1 ≠ idx := by omega
  have hne2 : pair.2 ≠ idx := by omega
  have hidxlook : alookup (vocab ++ [(idx, x ++ y)]) idx = some (x ++ y) := by
    rw [alookup_append_of_none _ hvnone]
    simp [alookup]
  have hvalbound : ∀ e ∈ merges, e.2 < 256 + merges.length := by
    intro e he
    have hmem : e.2 ∈ merges.map (fun e => e.2) := List.mem_map.mpr ⟨e, he, rfl⟩
    rw [hvals] at hmem
    have := mem_range'_bounds hmem
    omega
  refine ⟨?_, ?_, ?_, ?_, ?_, ?_, ?_, ?_⟩
  · show (merges ++ [(pair, idx)]).map (fun e => e.2) =
      List.range' 256 (merges ++ [(pair, idx)]).length
    rw [List.map_append, hvals]
    simp only [List.map_cons, List.map_nil, List.length_append, List.length_cons,
      List.length_nil]
    rw [range'_snoc merges.length 256, hidx]
  · intro t ht
    simp only [List.length_append, List.length_cons, List.length_nil]
    rcases mergeSpec_mem t ht with h1 | h1
    · have := hids_lt t h1
      omega
    · omega
  · intro e he
    simp only [List.length_append, List.length_cons, List.length_nil]
    rcases List.mem_append.mp he with h1 | h1
    · have := hvkeys_lt e h1
      omega
    · have : e = (idx, x ++ y) := by simpa using h1
      rw [this]
      omega
  · intro b hb256
    exact alookup_append_of_some _ (hbyte b hb256)
  · intro e he
    rcases List.mem_append.mp he with h1 | h1
    · exact hmkeys_lt e h1
    · have : e = (pair, idx) := by simpa using h1
      rw [this]
      exact ⟨show pair.1 < idx by omega, show pair.2 < idx by omega⟩
  · intro e he
    rcases List.mem_append.mp he with h1 | h1
    · obtain ⟨a, b, ha, hb, hab⟩ := hgood e h1
      exact ⟨a, b, alookup_append_of_some _ ha, alookup_append_of_some _ hb,
        alookup_append_of_some _ hab⟩
    · have : e = (pair, idx) := by simpa using h1
      rw [this]
      exact ⟨x, y, alookup_append_of_some _ hx, alookup_append_of_some _ hy, hidxlook⟩
  · intro t ht
    rcases mergeSpec_mem t ht with h1 | h1
    · exact alookup_append_isSome _ (hids_dom t h1)
    · rw [h1, hidxlook]
      rfl
  · intro e he hmem
    rcases List.mem_append.mp he with h1 | h1
    · have hb := hmkeys_lt e h1
      have hv2 := hvalbound e h1
      have hne1' : e.1.1 ≠ idx := by omega
      have hne2' : e.1.2 ≠ idx := by omega
      exact hnoadj e h1 (adjPairs_mergeSpec ids e.1.1 e.1.2 hmem hne1' hne2')
    · have : e = (pair, idx) := by simpa using h1
      rw [this] at hmem
      exact mergeSpec_self_not_adj hne1 hne2 ids hmem

theorem trainLoop_inv : ∀ (n i : Nat) (st : TrainState), TInv st → i = st.merges.length →
    TInv (trainLoop n i st) ∧ (trainLoop n i st).merges.length ≤ st.merges.length + n := by
  intro n
  induction n with
  | zero =>
    intro i st h hi
    rw [trainLoop]
    exact ⟨h, by omega⟩
  | succ n ih =>
    intro i st h hi
    by_cases hstats : getStats st.ids = []
    · rw [trainLoop, if_pos hstats]
      exact ⟨h, by omega⟩
    · rw [trainLoop, if_neg hstats]
      have hkeys : maxPair (getStats st.ids) ∈ (getStats st.ids).map Prod.fst :=
        maxPair_mem_keys hstats
      have hadj : maxPair (getStats st.ids) ∈ adjPairs st.ids := mem_keys_adjPairs hkeys
      have hcomp := adjPairs_mem_fst (x := (maxPair (getStats st.ids)).1)
        (y := (maxPair (getStats st.ids)).2) hadj
      obtain ⟨x, hx⟩ := Option.isSome_iff_exists.mp (h.ids_dom _ hcomp.1)
      obtain ⟨y, hy⟩ := Option.isSome_iff_exists.mp (h.ids_dom _ hcomp.2)
      have hmnone : alookup st.merges (maxPair (getStats st.ids)) = none := by
        apply alookup_eq_none
        intro e he heq
        exact h.noadj e he (heq ▸ hadj)
      have hvnone : alookup st.vocab (256 + i) = none := by
        apply alookup_eq_none
        intro e he heq
        have h2 := h.vkeys_lt e he
        rw [heq] at h2
        omega
      have hmerges' : dinsert st.merges (maxPair (getStats st.ids)) (256 + i) =
          st.merges ++ [(maxPair (getStats st.ids), 256 + i)] := dinsert_of_none _ hmnone
      have hvocab' : dinsert st.vocab (256 + i)
          ((alookup st.vocab (maxPair (getStats st.ids)).1).getD [] ++
            (alookup st.vocab (maxPair (getStats st.ids)).2).getD []) =
          st.vocab ++ [(256 + i, x ++ y)] := by
        rw [dinsert_of_none _ hvnone, hx, hy]
        rfl
      have hids' : merge st.ids (maxPair (getStats st.ids)) (256 + i) =
          mergeSpec (maxPair (getStats st.ids)) (256 + i) st.ids := merge_eq_mergeSpec ..
      rw [hmerges', hvocab', hids']
      have hstep : TInv ⟨st.vocab ++ [(256 + i, x ++ y)],
          st.merges ++ [(maxPair (getStats st.ids), 256 + i)],
          mergeSpec (maxPair (getStats st.ids)) (256 + i) st.ids⟩ := by
        have hst : st = ⟨st.vocab, st.merges, st.ids⟩ := rfl
        exact TInv_step (hst ▸ h) hadj (by omega) hx hy
      have := ih (i + 1) _ hstep (by simp; omega)
      refine ⟨this.1, ?_⟩
      have h2 := this.2
      simp only [List.length_append, List.length_cons, List.length_nil] at h2
      omega

theorem train_inv {text : List Nat} {vs : Nat} {st : TrainState}
    (htext : ∀ c ∈ text, c < 1114112) (hok : train text vs = .ok st) :
    TInv st ∧ st.merges.length ≤ vs - 256 := by
  rw [train] at hok
  by_cases hvs : vs < 256
  · rw [if_pos hvs] at hok
    exact absurd hok (by simp)
  · rw [if_neg hvs] at hok
    injection hok with hst
    rw [← hst]
    have h0 : TInv ⟨byteVocab, [], utf8Encode text⟩ := TInv_init (utf8Encode_lt htext)
    have := trainLoop_inv (vs - 256) 0 _ h0 rfl
    exact ⟨this.1, by simpa using this.2⟩

/-! ### Encode-loop preservation and decode lemmas -/

theorem expand_bytes {vocab : List (Nat × List Nat)} :
    ∀ {bs : List Nat}, (∀ b ∈ bs, alookup vocab b = some [b]) → expand vocab bs = bs := by
  intro bs
  induction bs with
  | nil => intro _; rfl
  | cons b rest ih =>
    intro h
    rw [expand_cons, h b (List.mem_cons_self _ _), ih fun t ht => h t (List.mem_cons_of_mem _ ht)]
    rfl

theorem encodeLoop_pres {vocab : List (Nat × List Nat)} {merges : List ((Nat × Nat) × Nat)}
    (hgood : ∀ e ∈ merges, ∃ a b, alookup vocab e.1.1 = some a ∧
      alookup vocab e.1.2 = some b ∧ alookup vocab e.2 = some (a ++ b)) :
    ∀ (fuel : Nat) (toks : List Nat), (∀ t ∈ toks, (alookup vocab t).isSome) →
      expand vocab (encodeLoop merges fuel toks) = expand vocab toks ∧
      (∀ t ∈ encodeLoop merges fuel toks, (alookup vocab t).isSome) := by
  intro fuel
  induction fuel with
  | zero =>
    intro toks hdom
    rw [encodeLoop]
    exact ⟨rfl, hdom⟩
  | succ fuel ih =>
    intro toks hdom
    rw [encodeLoop]
    by_cases hlen : 2 ≤ toks.length
    · rw [if_pos hlen]
      cases hlook : alookup merges (minPair merges (getStats toks)) with
      | none => exact ⟨rfl, hdom⟩
      | some idx =>
        have hmem : (minPair merges (getStats toks), idx) ∈ merges := alookup_mem hlook
        obtain ⟨a, b, ha, hb, hab⟩ := hgood _ hmem
        dsimp only
        rw [merge_eq_mergeSpec]
        have hexp := @expand_mergeSpec vocab (minPair merges (getStats toks)) idx a b
          ha hb hab toks
        have hdom' : ∀ t ∈ mergeSpec (minPair merges (getStats toks)) idx toks,
            (alookup vocab t).isSome := by
          intro t ht
          rcases mergeSpec_mem t ht with h1 | h1
          · exact hdom t h1
          · rw [h1, hab]
            rfl
        have hih := ih _ hdom'
        exact ⟨hih.1.trans hexp, hih.2⟩
    · rw [if_neg hlen]
      exact ⟨rfl, hdom⟩

theorem decodeBytes_ok {vocab : List (Nat × List Nat)} :
    ∀ {ids : List Nat}, (∀ t ∈ ids, (alookup vocab t).isSome) →
      decodeBytes vocab ids = .ok (expand vocab ids) := by
  intro ids
  induction ids with
  | nil => intro _; rfl
  | cons t rest ih =>
    intro h
    obtain ⟨bs, hbs⟩ := Option.isSome_iff_exists.mp (h t (List.mem_cons_self _ _))
    rw [decodeBytes, hbs, ih fun u hu => h u (List.mem_cons_of_mem _ hu), expand_cons, hbs]
    rfl

theorem decode_ok {vocab : List (Nat × List Nat)} {ids : List Nat} (hne : vocab ≠ [])
    (hdom : ∀ t ∈ ids, (alookup vocab t).isSome) :
    decode vocab ids = .ok (utf8DecodeLossy (expand vocab ids)) := by
  rw [decode, if_neg hne, decodeBytes_ok hdom]

/-! ### UTF-8 round trip -/

theorem utf8DecodeLossyF_nil : ∀ fuel, utf8DecodeLossyF fuel [] = [] := by
  intro fuel
  cases fuel <;> rfl

theorem utf8DecodeLossyF_char {c : Nat} (hv : ValidCp c) :
    ∀ (bs : List Nat) (fuel : Nat),
      utf8DecodeLossyF (fuel + 1) (utf8EncodeChar c ++ bs) = c :: utf8DecodeLossyF fuel bs := by
  intro bs fuel
  have hv' : c < 55296 ∨ (57344 ≤ c ∧ c < 1114112) := hv
  have hr : c < 128 ∨ (128 ≤ c ∧ c < 2048) ∨ (2048 ≤ c ∧ c < 65536) ∨
      (65536 ≤ c ∧ c < 1114112) := by
    rcases hv' with h | h <;> omega
  rcases hr with h1 | h2 | h3 | h4
  · have henc : utf8EncodeChar c = [c] := by
      rw [utf8EncodeChar, if_pos (by omega)]
    rw [henc, List.cons_append, List.nil_append]
    simp only [utf8DecodeLossyF]
    rw [if_pos (by omega)]
  · have henc : utf8EncodeChar c = [192 + c / 64, 128 + c % 64] := by
      rw [utf8EncodeChar, if_neg (by omega), if_pos (by omega)]
    rw [henc, List.cons_append, List.cons_append, List.nil_append]
    simp only [utf8DecodeLossyF]
    rw [if_neg (by omega), if_neg (by omega), if_pos (by omega), if_pos (by omega)]
    have : (192 + c / 64 - 192) * 64 + (128 + c % 64 - 128) = c := by omega
    rw [this]
  · have henc : utf8EncodeChar c = [224 + c / 4096, 128 + c / 64 % 64, 128 + c % 64] := by
      rw [utf8EncodeChar, if_neg (by omega), if_neg (by omega), if_pos (by omega)]
    rw [henc, List.cons_append, List.cons_append, List.cons_append, List.nil_append]
    simp only [utf8DecodeLossyF]
    rw [if_neg (by omega), if_neg (by omega), if_neg (by omega), if_pos (by omega)]
    rw [if_pos (show (if 224 + c / 4096 = 224 then 160 else 128) ≤ 128 + c / 64 % 64 ∧
        128 + c / 64 % 64 < (if 224 + c / 4096 = 237 then 160 else 192) by
      constructor <;> split_ifs <;> (rcases hv' with h | h <;> omega))]
    rw [if_pos (by omega)]
    have : (224 + c / 4096 - 224) * 4096 + (128 + c / 64 % 64 - 128) * 64 +
        (128 + c % 64 - 128) = c := by omega
    rw [this]
  · have henc : utf8EncodeChar c =
        [240 + c / 262144, 128 + c / 4096 % 64, 128 + c / 64 % 64, 128 + c % 64] := by
      rw [utf8EncodeChar, if_neg (by omega), if_neg (by omega), if_neg (by omega)]
    rw [henc, List.cons_append, List.cons_append, List.cons_append, List.cons_append,
      List.nil_append]
    simp only [utf8DecodeLossyF]
    rw [if_neg (by omega), if_neg (by omega), if_neg (by omega), if_neg (by omega),
      if_pos (by omega)]
    rw [if_pos (show (if 240 + c / 262144 = 240 then 144 else 128) ≤ 128 + c / 4096 % 64 ∧
        128 + c / 4096 % 64 < (if 240 + c / 262144 = 244 then 144 else 192) by
      constructor <;> split_ifs <;> omega)]
    rw [if_pos (by omega), if_pos (by omega)]
    have : (240 + c / 262144 - 240) * 262144 + (128 + c / 4096 % 64 - 128) * 4096 +
        (128 + c / 64 % 64 - 128) * 64 + (128 + c % 64 - 128) = c := by omega
    rw [this]

theorem utf8EncodeChar_ne_nil (c : Nat) : utf8EncodeChar c ≠ [] := by
  rw [utf8EncodeChar]
  split_ifs <;> simp

theorem utf8Encode_cons (c : Nat) (l : List Nat) :
    utf8Encode (c :: l) = utf8EncodeChar c ++ utf8Encode l := by
  rw [utf8Encode, List.map_cons, List.flatten_cons]
  rfl

theorem utf8DecodeLossyF_append {cps : List Nat} (hv : ∀ c ∈ cps, ValidCp c) :
    ∀ (bs : List Nat) (fuel : Nat),
      utf8DecodeLossyF (fuel + cps.length) (utf8Encode cps ++ bs) =
        cps ++ utf8DecodeLossyF fuel bs := by
  induction cps with
  | nil =>
    intro bs fuel
    simp [utf8Encode]
  | cons c cps' ih =>
    intro bs fuel
    rw [utf8Encode_cons, List.append_assoc]
    have hlen : fuel + (c :: cps').length = (fuel + cps'.length) + 1 := by
      simp
      omega
    rw [hlen, utf8DecodeLossyF_char (hv c (List.mem_cons_self _ _)),
      ih (fun d hd => hv d (List.mem_cons_of_mem _ hd)) bs fuel]
    rfl

theorem utf8Encode_length_ge (cps : List Nat) : cps.length ≤ (utf8Encode cps).length := by
  induction cps with
  | nil => simp [utf8Encode]
  | cons c cps' ih =>
    rw [utf8Encode_cons, List.length_append, List.length_cons]
    have h1 : 0 < (utf8EncodeChar c).length :=
      List.length_pos.mpr (utf8EncodeChar_ne_nil c)
    omega

theorem utf8_roundtrip {cps : List Nat} (hv : ∀ c ∈ cps, ValidCp c) :
    utf8DecodeLossy (utf8Encode cps) = cps := by
  rw [utf8DecodeLossy]
  have hge := utf8Encode_length_ge cps
  have hfuel : (utf8Encode cps).length = ((utf8Encode cps).length - cps.length) + cps.length := by
    omega
  rw [hfuel]
  have happ := utf8DecodeLossyF_append hv [] ((utf8Encode cps).length - cps.length)
  rw [List.append_nil] at happ
  rw [happ, utf8DecodeLossyF_nil, List.append_nil]

/-! ### Persistence round-trip lemmas -/

theorem decAux_digits : ∀ (fuel n : Nat), ∀ ch ∈ decAux fuel n, 48 ≤ ch ∧ ch ≤ 57 := by
  intro fuel
  induction fuel with
  | zero => intro n ch h; simp [decAux] at h
  | succ fuel ih =>
    intro n ch h
    rw [decAux] at h
    by_cases h10 : n < 10
    · rw [if_pos h10] at h
      have : ch = 48 + n := by simpa using h
      omega
    · rw [if_neg h10] at h
      rcases List.mem_append.mp h with h1 | h1
      · exact ih (n / 10) ch h1
      · have : ch = 48 + n % 10 := by simpa using h1
        omega

theorem decAux_ne_nil : ∀ (fuel n : Nat), 0 < fuel → decAux fuel n ≠ [] := by
  intro fuel n h
  match fuel, h with
  | fuel + 1, _ =>
    rw [decAux]
    split_ifs <;> simp

theorem parseDecAux_nil (acc : Nat) : parseDecAux [] acc = some acc := rfl

theorem parseDecAux_cons (c : Nat) (rest : List Nat) (acc : Nat) :
    parseDecAux (c :: rest) acc =
      match decDigit c with
      | some d => parseDecAux rest (acc * 10 + d)
      | none => none := rfl

theorem parseDecAux_append {l1 : List Nat} {acc m : Nat} (l2 : List Nat)
    (h : parseDecAux l1 acc = some m) : parseDecAux (l1 ++ l2) acc = parseDecAux l2 m := by
  induction l1 generalizing acc with
  | nil =>
    have : acc = m := by simpa [parseDecAux_nil] using h
    rw [this]
    rfl
  | cons c rest ih =>
    rw [parseDecAux_cons] at h
    cases hd : decDigit c with
    | none => rw [hd] at h; exact absurd h (by simp)
    | some d =>
      rw [hd] at h
      rw [List.cons_append, parseDecAux_cons, hd]
      exact ih h

theorem decAux_parse : ∀ (fuel n : Nat), n < fuel → parseDecAux (decAux fuel n) 0 = some n := by
  intro fuel
  induction fuel with
  | zero => intro n h; omega
  | succ fuel ih =>
    intro n hn
    rw [decAux]
    by_cases h10 : n < 10
    · rw [if_pos h10]
      have hd : decDigit (48 + n) = some n := by
        rw [decDigit, if_pos (by omega)]
        congr 1
        omega
      rw [parseDecAux_cons, hd]
      show parseDecAux [] (0 * 10 + n) = some n
      rw [parseDecAux_nil]
      congr 1
      omega
    · rw [if_neg h10]
      have h1 := ih (n / 10) (by omega)
      rw [parseDecAux_append _ h1]
      have hd : decDigit (48 + n % 10) = some (n % 10) := by
        rw [decDigit, if_pos (by omega)]
        congr 1
        omega
      rw [parseDecAux_cons, hd]
      show parseDecAux [] (n / 10 * 10 + n % 10) = some n
      rw [parseDecAux_nil]
      congr 1
      omega

theorem natToDecChars_parse (n : Nat) : decCharsToNat (natToDecChars n) = some n := by
  rw [natToDecChars, decCharsToNat, if_neg (decAux_ne_nil (n + 1) n (by omega))]
  exact decAux_parse (n + 1) n (by omega)

theorem natToDecChars_digits (n : Nat) : ∀ ch ∈ natToDecChars n, 48 ≤ ch ∧ ch ≤ 57 :=
  decAux_digits (n + 1) n

theorem hexDigitChar_val {d : Nat} (h : d < 16) : hexVal (hexDigitChar d) = some d := by
  rw [hexDigitChar]
  by_cases h10 : d < 10
  · rw [if_pos h10, hexVal, if_pos (by omega)]
    congr 1
    omega
  · rw [if_neg h10, hexVal, if_neg (by omega), if_pos (by omega)]
    congr 1
    omega

theorem bytesToHex_cons (b : Nat) (bs : List Nat) :
    bytesToHex (b :: bs) = hexDigitChar (b / 16) :: hexDigitChar (b % 16) :: bytesToHex bs := by
  rw [bytesToHex, List.map_cons, List.flatten_cons]
  rfl

theorem hex_roundtrip : ∀ {bs : List Nat}, (∀ b ∈ bs, b < 256) →
    hexCharsToBytes (bytesToHex bs) = some bs := by
  intro bs
  induction bs with
  | nil => intro _; rfl
  | cons b rest ih =>
    intro h
    have hb := h b (List.mem_cons_self _ _)
    rw [bytesToHex_cons, hexCharsToBytes]
    simp only [hexDigitChar_val (show b / 16 < 16 by omega),
      hexDigitChar_val (show b % 16 < 16 by omega),
      ih fun t ht => h t (List.mem_cons_of_mem _ ht)]
    have : b / 16 * 16 + b % 16 = b := by omega
    rw [this]

theorem splitComma_no_comma : ∀ {s : List Nat}, (∀ c ∈ s, c ≠ 44) → splitComma s = [s] := by
  intro s
  induction s with
  | nil => intro _; rfl
  | cons c rest ih =>
    intro h
    rw [splitComma, if_neg (h c (List.mem_cons_self _ _)),
      ih fun t ht => h t (List.mem_cons_of_mem _ ht)]

theorem splitComma_append {s1 : List Nat} (s2 : List Nat) (h : ∀ c ∈ s1, c ≠ 44) :
    splitComma (s1 ++ 44 :: s2) = s1 :: splitComma s2 := by
  induction s1 with
  | nil =>
    rw [List.nil_append, splitComma, if_pos rfl]
  | cons c rest ih =>
    rw [List.cons_append, splitComma, if_neg (h c (List.mem_cons_self _ _)),
      ih fun t ht => h t (List.mem_cons_of_mem _ ht)]

theorem parseMergeKey_roundtrip (l r : Nat) :
    parseMergeKey (natToDecChars l ++ 44 :: natToDecChars r) = some (l, r) := by
  have hl : ∀ c ∈ natToDecChars l, c ≠ 44 := by
    intro c hc
    have := natToDecChars_digits l c hc
    omega
  have hr : ∀ c ∈ natToDecChars r, c ≠ 44 := by
    intro c hc
    have := natToDecChars_digits r c hc
    omega
  rw [parseMergeKey, splitComma_append _ hl, splitComma_no_comma hr]
  simp only [natToDecChars_parse]

theorem foldl_dinsert_fresh {α β : Type} [DecidableEq α] :
    ∀ (l acc : List (α × β)), ((acc ++ l).map Prod.fst).Nodup →
      l.foldl (fun d e => dinsert d e.1 e.2) acc = acc ++ l := by
  intro l
  induction l with
  | nil => intro acc _; simp
  | cons e l' ih =>
    intro acc h
    rw [List.foldl_cons]
    have hfresh : alookup acc e.1 = none := by
      apply alookup_eq_none
      intro x hx hxe
      rw [List.map_append] at h
      have hdisj := (List.nodup_append.mp h).2.2
      exact hdisj (List.mem_map.mpr ⟨x, hx, rfl⟩)
        (by rw [List.map_cons]; exact hxe ▸ List.mem_cons_self _ _)
    rw [dinsert_of_none _ hfresh]
    have hre : acc ++ [e] ++ l' = acc ++ e :: l' := by simp
    have h2 : ((acc ++ [e] ++ l').map Prod.fst).Nodup := by
      rw [hre]
      exact h
    rw [ih (acc ++ [e]) h2, hre]

theorem parseVocabEntries_save : ∀ {V : List (Nat × List Nat)},
    (∀ e ∈ V, ∀ b ∈ e.2, b < 256) → parseVocabEntries (saveVocabDoc V) = some V := by
  intro V
  induction V with
  | nil => intro _; rfl
  | cons e V' ih =>
    intro h
    rw [saveVocabDoc, List.map_cons, parseVocabEntries]
    have hbytes := h e (List.mem_cons_self _ _)
    simp only [natToDecChars_parse, hex_roundtrip hbytes]
    rw [show (List.map (fun e => (natToDecChars e.1, bytesToHex e.2)) V') = saveVocabDoc V'
      from rfl]
    simp only [ih fun x hx => h x (List.mem_cons_of_mem _ hx)]

theorem parseVocabDoc_save {V : List (Nat × List Nat)} (hkeys : (V.map Prod.fst).Nodup)
    (hbytes : ∀ e ∈ V, ∀ b ∈ e.2, b < 256) : parseVocabDoc (saveVocabDoc V) = some V := by
  rw [parseVocabDoc]
  simp only [parseVocabEntries_save hbytes]
  rw [foldl_dinsert_fresh V [] (by simpa using hkeys)]
  rfl

theorem parseMergeEntries_save : ∀ (M : List ((Nat × Nat) × Nat)),
    parseMergeEntries (saveMergesDoc M) = some M := by
  intro M
  induction M with
  | nil => rfl
  | cons e M' ih =>
    rw [saveMergesDoc, List.map_cons, parseMergeEntries]
    simp only [parseMergeKey_roundtrip]
    rw [show (List.map (fun e => (natToDecChars e.1.1 ++ 44 :: natToDecChars e.1.2, e.2)) M') =
      saveMergesDoc M' from rfl]
    simp only [ih]

theorem parseMergesDoc_save {M : List ((Nat × Nat) × Nat)} (hkeys : (M.map Prod.fst).Nodup) :
    parseMergesDoc (saveMergesDoc M) = some M := by
  rw [parseMergesDoc]
  simp only [parseMergeEntries_save]
  rw [foldl_dinsert_fresh M [] (by simpa using hkeys)]
  rfl

theorem minPair_mem_keys {merges stats : List ((Nat × Nat) × Nat)} (h : stats ≠ []) :
    minPair merges stats ∈ stats.map Prod.fst := by
  match stats, h with
  | e :: rest, _ =>
    rw [minPair]
    exact List.mem_map.mpr ⟨minEntry merges e rest, minEntry_mem merges rest e, rfl⟩

theorem range'_decomp : ∀ (A : List Nat) (x : Nat) (B : List Nat) (s n : Nat),
    A ++ x :: B = List.range' s n → x = s + A.length := by
  intro A
  induction A with
  | nil =>
    intro x B s n h
    cases n with
    | zero => simp [List.range'] at h
    | succ n =>
      rw [List.range', List.nil_append] at h
      injection h with h1 _
  | cons a A' ih =>
    intro x B s n h
    cases n with
    | zero => simp [List.range'] at h
    | succ n =>
      rw [List.range', List.cons_append] at h
      injection h with h1 h2
      have := ih x B (s + 1) n h2
      simp only [List.length_cons]
      omega

/-! ### Claim theorems -/

/-- C4: `_merge` replaces every non-overlapping, left-to-right occurrence of
the target pair by one instance of the replacement ID, with scanning resuming
past both consumed positions after a match (so an occurrence starting at the
second consumed position is skipped): the index-based while loop of the
source (`merge`) coincides with the recursive scanner `mergeSpec` written
from the spec's words.  The input sequence is unchanged (`merge` is a pure
function of it, mirroring the source's construction of a fresh `newids`
list). -/
theorem claim4_merge_replaces (ids : List Nat) (pair : Nat × Nat) (idx : Nat) :
    merge ids pair idx = mergeSpec pair idx ids :=
  merge_eq_mergeSpec ids pair idx

/-- C9: `train(T, 256)` succeeds with zero merges for every text, leaving the
merge table empty, and a subsequent `encode` on that trained state fails with
the untrained-state error, because `encode` tests emptiness of the merge
table rather than whether `train` ran. -/
theorem claim9_zero_merges (cps cps2 : List Nat) :
    train cps 256 = Except.ok ⟨byteVocab, [], utf8Encode cps⟩ ∧
    (⟨byteVocab, [], utf8Encode cps⟩ : TrainState).merges = [] ∧
    encode (⟨byteVocab, [], utf8Encode cps⟩ : TrainState).merges cps2 =
      Except.error Err.untrained :=
  ⟨rfl, rfl, rfl⟩

/-- C2 (amended none; confirmed): in each iteration of `encode`'s loop with at
least two tokens and a non-empty merge table, the selected pair is an adjacent
pair present in the sequence whose merge-table value is minimal among all
present pairs that have one; and if no present pair is in the table, one more
loop iteration returns the sequence unchanged. -/
theorem claim2_encode_selection (merges : List ((Nat × Nat) × Nat)) (tokens : List Nat)
    (hlen : 2 ≤ tokens.length) (hm : merges ≠ []) :
    ((∃ q ∈ (getStats tokens).map Prod.fst, (alookup merges q).isSome) →
      minPair merges (getStats tokens) ∈ adjPairs tokens ∧
      ∃ v, alookup merges (minPair merges (getStats tokens)) = some v ∧
        ∀ q ∈ (getStats tokens).map Prod.fst, ∀ w, alookup merges q = some w → v ≤ w) ∧
    ((∀ q ∈ (getStats tokens).map Prod.fst, alookup merges q = none) →
      ∀ fuel, encodeLoop merges (fuel + 1) tokens = tokens) := by
  constructor
  · rintro ⟨q, hq, hqs⟩
    have hstats : getStats tokens ≠ [] := getStats_ne_nil hlen
    cases hst : getStats tokens with
    | nil => exact absurd hst hstats
    | cons e rest =>
      rw [hst] at hq
      rw [minPair]
      have hrmem : minEntry merges e rest ∈ e :: rest := minEntry_mem merges rest e
      have hrkeys : (minEntry merges e rest).1 ∈ (e :: rest).map Prod.fst :=
        List.mem_map.mpr ⟨minEntry merges e rest, hrmem, rfl⟩
      have hradj : (minEntry merges e rest).1 ∈ adjPairs tokens := by
        apply mem_keys_adjPairs
        rw [hst]
        exact hrkeys
      obtain ⟨w0, hw0⟩ := Option.isSome_iff_exists.mp hqs
      obtain ⟨eq, heq, heq1⟩ := List.mem_map.mp hq
      have hqmin := minEntry_min merges rest e eq heq
      rw [heq1, hw0] at hqmin
      cases hk : alookup merges (minEntry merges e rest).1 with
      | none =>
        rw [hk] at hqmin
        exact absurd hqmin (by simp [optLt])
      | some v =>
        refine ⟨hradj, v, rfl, ?_⟩
        intro q' hq' w hw
        obtain ⟨eq', heq', heq1'⟩ := List.mem_map.mp hq'
        have hmin := minEntry_min merges rest e eq' heq'
        rw [heq1', hw, hk] at hmin
        simp [optLt] at hmin
        omega
  · intro hnone fuel
    rw [encodeLoop, if_pos hlen]
    have hmemk : minPair merges (getStats tokens) ∈ (getStats tokens).map Prod.fst :=
      minPair_mem_keys (getStats_ne_nil hlen)
    rw [hnone _ hmemk]

/-- Witness for C2 at a concrete input: with one learned merge (97,98)↦256 and
tokens "abc", the selected pair is present in the sequence. -/
theorem claim2_witness :
    minPair [((97, 98), 256)] (getStats [97, 98, 99]) ∈ adjPairs [97, 98, 99] :=
  ((claim2_encode_selection [((97, 98), 256)] [97, 98, 99] (by decide) (by decide)).1
    ⟨(97, 98), by decide, by decide⟩).1

/-- C3: the pair `train` selects is one of maximal frequency in the current
pair statistics, and among pairs tied for that maximal count it is the one
whose first adjacent occurrence in the token sequence is leftmost (Python's
`max` returns the first maximal key in the insertion order of `_get_stats`,
which is first-occurrence order). -/
theorem claim3_train_selection (ids : List Nat) (hne : getStats ids ≠ []) :
    ∃ c, (maxPair (getStats ids), c) ∈ getStats ids ∧
      (∀ e ∈ getStats ids, e.2 ≤ c) ∧
      (∀ e ∈ getStats ids, e.2 = c →
        firstIdx (adjPairs ids) (maxPair (getStats ids)) ≤ firstIdx (adjPairs ids) e.1) := by
  cases hst : getStats ids with
  | nil => exact absurd hst hne
  | cons e rest =>
    rw [maxPair]
    obtain ⟨L1, L2, hdec, hl1, hl2⟩ := maxEntry_split rest e
    have hrmem : maxEntry e rest ∈ e :: rest := by
      rw [hdec]
      exact List.mem_append_right _ (List.mem_cons_self _ _)
    refine ⟨(maxEntry e rest).2, hrmem, ?_, ?_⟩
    · intro x hx
      rw [hdec] at hx
      rcases List.mem_append.mp hx with h1 | h1
      · exact Nat.le_of_lt (hl1 x h1)
      · rcases List.mem_cons.mp h1 with heq | h1
        · rw [heq]
        · exact hl2 x h1
    · intro x hx hxc
      rw [hdec] at hx
      have hpw := @getStats_pairwise ids
      rw [hst, hdec, List.map_append, List.map_cons] at hpw
      have hpost := (List.pairwise_cons.mp (List.pairwise_append.mp hpw).2.1).1
      rcases List.mem_append.mp hx with h1 | h1
      · have := hl1 x h1
        omega
      · rcases List.mem_cons.mp h1 with heq | h1
        · rw [heq]
        · exact Nat.le_of_lt (hpost x.1 (List.mem_map.mpr ⟨x, h1, rfl⟩))

/-- Witness for C3 at a concrete input. -/
theorem claim3_witness :
    ∃ c, (maxPair (getStats [97, 98, 97, 98]), c) ∈ getStats [97, 98, 97, 98] ∧
      (∀ e ∈ getStats [97, 98, 97, 98], e.2 ≤ c) ∧
      (∀ e ∈ getStats [97, 98, 97, 98], e.2 = c →
        firstIdx (adjPairs [97, 98, 97, 98]) (maxPair (getStats [97, 98, 97, 98])) ≤
          firstIdx (adjPairs [97, 98, 97, 98]) e.1) :=
  claim3_train_selection [97, 98, 97, 98] (by decide)

/-- C6: after a successful `train`, the merge-table values listed in insertion
(= iteration) order are exactly 256, 257, …, 256+k-1 for k the number of
merges performed, k at most `vocab_size - 256`; equivalently the entry at
position i of the table carries value 256 + i.  The code-point bound encodes
that the training text is a genuine string. -/
theorem claim6_merge_values (tcps : List Nat) (vs : Nat) (hvs : 256 ≤ vs)
    (htc : ∀ c ∈ tcps, c < 1114112) (st : TrainState) (hok : train tcps vs = Except.ok st) :
    st.merges.map (fun e => e.2) = List.range' 256 st.merges.length ∧
    st.merges.length ≤ vs - 256 ∧
    ∀ (pre : List ((Nat × Nat) × Nat)) (e : (Nat × Nat) × Nat) (suf : List ((Nat × Nat) × Nat)),
      st.merges = pre ++ e :: suf → e.2 = 256 + pre.length := by
  obtain ⟨hinv, hlen⟩ := train_inv htc hok
  refine ⟨hinv.vals, hlen, ?_⟩
  intro pre e suf hdec
  have hv := hinv.vals
  rw [hdec, List.map_append, List.map_cons] at hv
  have := range'_decomp (pre.map fun e => e.2) e.2 (suf.map fun e => e.2) 256 _ hv
  simpa using this

/-- Witness for C6 at a concrete training run (`"abab"`, vocab size 257). -/
theorem claim6_witness :
    ([((97, 98), 256)] : List ((Nat × Nat) × Nat)).map (fun e => e.2) = List.range' 256 1 ∧
    ([((97, 98), 256)] : List ((Nat × Nat) × Nat)).length ≤ 257 - 256 ∧
    ∀ (pre : List ((Nat × Nat) × Nat)) (e : (Nat × Nat) × Nat) (suf : List ((Nat × Nat) × Nat)),
      ([((97, 98), 256)] : List ((Nat × Nat) × Nat)) = pre ++ e :: suf →
        e.2 = 256 + pre.length :=
  claim6_merge_values [97, 98, 97, 98] 257 (by omega) (by decide)
    ⟨byteVocab ++ [(256, [97, 98])], [((97, 98), 256)], [256, 256]⟩ rfl

/-- C8 counterexample: the bytes [255, 255] form a single maximal invalid
subsequence (no suffix of it begins a valid UTF-8 sequence), yet CPython's
replacement decoder — and `decode`, faithfully — produces two U+FFFD (65533),
one per maximal subpart, not one for the whole subsequence as the claim
states. -/
theorem claim8_counterexample :
    decode [(0, [255, 255])] [0] = Except.ok [65533, 65533] ∧
    utf8DecodeLossy [255, 255] ≠ [65533] :=
  ⟨rfl, by decide⟩

/-- C8 as amended: for an ID sequence whose IDs all have vocabulary entries
(and a non-empty vocabulary), `decode` concatenates the expansions in order
and decodes the buffer with CPython's lossy replacement semantics — one
U+FFFD per maximal subpart of an ill-formed subsequence (so a maximal invalid
subsequence may yield several U+FFFD) — and never fails. -/
theorem claim8_decode_lossy (vocab : List (Nat × List Nat)) (ids : List Nat)
    (hne : vocab ≠ []) (hdom : ∀ t ∈ ids, (alookup vocab t).isSome) :
    decode vocab ids = Except.ok (utf8DecodeLossy (expand vocab ids)) :=
  decode_ok hne hdom

/-- Witness for C8 at a concrete input. -/
theorem claim8_witness :
    decode [(0, [97])] [0, 0] = Except.ok (utf8DecodeLossy (expand [(0, [97])] [0, 0])) :=
  claim8_decode_lossy [(0, [97])] [0, 0] (by decide) (by decide)

/-- C1 counterexample: the claim quantifies over every `vocab_size ≥ 256`, but
`train("a", 256)` succeeds with an empty merge table, and `encode` on the
resulting tokenizer fails with the untrained-state error, so
`decode(encode(T))` does not return T there. -/
theorem claim1_counterexample :
    train [97] 256 = Except.ok ⟨byteVocab, [], [97]⟩ ∧
    encode (⟨byteVocab, [], [97]⟩ : TrainState).merges [97] = Except.error Err.untrained :=
  ⟨rfl, rfl⟩

/-- C1 as amended: after a successful `train` whose merge table is non-empty,
`decode (encode T)` returns T for every valid-UTF-8 text T (when the merge
table is empty — e.g. `vocab_size = 256` or a too-short training text —
`encode` instead fails with the untrained-state error, see the
counterexample and C9). -/
theorem claim1_roundtrip (tcps cps : List Nat) (vs : Nat) (hvs : 256 ≤ vs)
    (htc : ∀ c ∈ tcps, c < 1114112) (st : TrainState) (hok : train tcps vs = Except.ok st)
    (hne : st.merges ≠ []) (hval : ∀ c ∈ cps, ValidCp c) :
    ∃ toks, encode st.merges cps = Except.ok toks ∧ decode st.vocab toks = Except.ok cps := by
  obtain ⟨hinv, _⟩ := train_inv htc hok
  have hcb : ∀ c ∈ cps, c < 1114112 := by
    intro c hc
    have h2 : c < 55296 ∨ (57344 ≤ c ∧ c < 1114112) := hval c hc
    rcases h2 with h | h <;> omega
  have hb : ∀ b ∈ utf8Encode cps, b < 256 := utf8Encode_lt hcb
  have hdom : ∀ t ∈ utf8Encode cps, (alookup st.vocab t).isSome := by
    intro t ht
    rw [hinv.byte_entries t (hb t ht)]
    rfl
  have hpres := encodeLoop_pres hinv.good (utf8Encode cps).length (utf8Encode cps) hdom
  refine ⟨encodeLoop st.merges (utf8Encode cps).length (utf8Encode cps), ?_, ?_⟩
  · rw [encode, if_neg hne]
  · have hvne : st.vocab ≠ [] := ne_nil_of_alookup_some (hinv.byte_entries 0 (by omega))
    rw [decode_ok hvne hpres.2, hpres.1,
      expand_bytes fun b hb2 => hinv.byte_entries b (hb b hb2), utf8_roundtrip hval]

/-- Witness for the amended C1: the tokenizer trained on "abab" with vocab
size 257 round-trips "abc". -/
theorem claim1_witness :
    ∃ toks, encode [((97, 98), 256)] [97, 98, 99] = Except.ok toks ∧
      decode (byteVocab ++ [(256, [97, 98])]) toks = Except.ok [97, 98, 99] :=
  claim1_roundtrip [97, 98, 97, 98] [97, 98, 99] 257 (by omega) (by decide)
    ⟨byteVocab ++ [(256, [97, 98])], [((97, 98), 256)], [256, 256]⟩ rfl (by decide) (by decide)

/-- C5 counterexample: `load` assigns the vocabulary before reading the
merges file, so a load whose merges file is unreadable leaves the instance
with the freshly loaded vocabulary and the old merge table — a failed call
that does not leave the state untouched. -/
theorem claim5_counterexample :
    (loadOp ⟨[(0, [0])], [((1, 2), 300)]⟩ (Except.ok [([49], [54, 49])])
      (Except.error ())).1 = Except.error Err.ioError ∧
    (loadOp ⟨[(0, [0])], [((1, 2), 300)]⟩ (Except.ok [([49], [54, 49])])
      (Except.error ())).2 ≠ ⟨[(0, [0])], [((1, 2), 300)]⟩ :=
  ⟨rfl, by decide⟩

/-- C5 as amended: a failed `train` leaves the state unchanged (its argument
check precedes any mutation); `encode`, `decode` and `save` never mutate the
state; a failed `load` always leaves the merge table unchanged, and leaves
the vocabulary unchanged except in one case the counterexample exhibits:
when the vocabulary document was read and parsed but the merges phase then
failed, the vocabulary has already been replaced by the newly parsed one. -/
theorem claim5_atomicity (st : Tok) (cps : List Nat) (vs : Nat) (ids : List Nat) (iof : Bool)
    (vf : Except Unit (List (List Nat × List Nat))) (mf : Except Unit (List (List Nat × Nat))) :
    (isOkE (trainOp st cps vs).1 = false → (trainOp st cps vs).2 = st) ∧
    (encodeOp st cps).2 = st ∧
    (decodeOp st ids).2 = st ∧
    (saveOp st iof).2 = st ∧
    (isOkE (loadOp st vf mf).1 = false →
      (loadOp st vf mf).2.merges = st.merges ∧
      ((loadOp st vf mf).2.vocab = st.vocab ∨
        ∃ vdoc v, vf = Except.ok vdoc ∧ parseVocabDoc vdoc = some v ∧
          (loadOp st vf mf).2.vocab = v)) := by
  refine ⟨?_, rfl, rfl, rfl, ?_⟩
  · simp only [trainOp]
    cases htr : train cps vs with
    | error e => intro _; rfl
    | ok ts => intro h; simp [isOkE] at h
  · simp only [loadOp]
    cases vf with
    | error u => intro _; exact ⟨rfl, Or.inl rfl⟩
    | ok vdoc =>
      dsimp only
      cases hp : parseVocabDoc vdoc with
      | none => intro _; exact ⟨rfl, Or.inl rfl⟩
      | some v =>
        cases mf with
        | error u => intro _; exact ⟨rfl, Or.inr ⟨vdoc, v, rfl, hp, rfl⟩⟩
        | ok mdoc =>
          dsimp only
          cases hm2 : parseMergesDoc mdoc with
          | none => intro _; exact ⟨rfl, Or.inr ⟨vdoc, v, rfl, hp, rfl⟩⟩
          | some m => intro h; simp [isOkE] at h

/-- Witness for the amended C5: a failed train (vocab size 255) leaves the
state untouched, and a load that fails reading the vocabulary file leaves the
merge table untouched. -/
theorem claim5_witness :
    (trainOp ⟨[(0, [0])], [((1, 2), 300)]⟩ [97] 255).2 = ⟨[(0, [0])], [((1, 2), 300)]⟩ ∧
    (loadOp ⟨[(0, [0])], [((1, 2), 300)]⟩ (Except.error ()) (Except.error ())).2.merges =
      [((1, 2), 300)] := by
  have h := claim5_atomicity ⟨[(0, [0])], [((1, 2), 300)]⟩ [97] 255 [] true
    (Except.error ()) (Except.error ())
  exact ⟨h.1 (by decide), (h.2.2.2.2 (by decide)).1⟩

/-- C7: loading the two documents produced by `save` reproduces the
vocabulary and the merge table exactly, whatever the prior state of the
loading tokenizer.  The hypotheses state that V and M are genuine dicts
(unique keys) of genuine byte strings (values below 256), which Python's
types enforce. -/
theorem claim7_load_save (st0 : Tok) (V : List (Nat × List Nat)) (M : List ((Nat × Nat) × Nat))
    (hVkeys : (V.map Prod.fst).Nodup) (hVbytes : ∀ e ∈ V, ∀ b ∈ e.2, b < 256)
    (hMkeys : (M.map Prod.fst).Nodup) :
    loadOp st0 (Except.ok (saveVocabDoc V)) (Except.ok (saveMergesDoc M)) =
      (Except.ok (), ⟨V, M⟩) := by
  simp only [loadOp, parseVocabDoc_save hVkeys hVbytes, parseMergesDoc_save hMkeys]

/-- Witness for C7 at a concrete vocabulary and merge table. -/
theorem claim7_witness :
    loadOp ⟨[], []⟩ (Except.ok (saveVocabDoc [(0, [171]), (300, [97, 98])]))
      (Except.ok (saveMergesDoc [((97, 98), 256)])) =
      (Except.ok (), ⟨[(0, [171]), (300, [97, 98])], [((97, 98), 256)]⟩) :=
  claim7_load_save ⟨[], []⟩ [(0, [171]), (300, [97, 98])] [((97, 98), 256)]
    (by decide) (by decide) (by decide)

/-- C10: after a successful `train`, every ID produced by a successful
`encode` has a vocabulary entry (raw bytes are the initial 256 entries and
every merge result was recorded together with its expansion), and `decode`
on that output succeeds. -/
theorem claim10_encode_in_vocab (tcps cps : List Nat) (vs : Nat) (hvs : 256 ≤ vs)
    (htc : ∀ c ∈ tcps, c < 1114112) (hc : ∀ c ∈ cps, c < 1114112) (st : TrainState)
    (hok : train tcps vs = Except.ok st) (toks : List Nat)
    (henc : encode st.merges cps = Except.ok toks) :
    (∀ t ∈ toks, (alookup st.vocab t).isSome) ∧ isOkE (decode st.vocab toks) = true := by
  obtain ⟨hinv, _⟩ := train_inv htc hok
  rw [encode] at henc
  by_cases hm : st.merges = []
  · rw [if_pos hm] at henc
    exact absurd henc (by simp)
  · rw [if_neg hm] at henc
    injection henc with htoks
    have hb : ∀ b ∈ utf8Encode cps, b < 256 := utf8Encode_lt hc
    have hdom : ∀ t ∈ utf8Encode cps, (alookup st.vocab t).isSome := by
      intro t ht
      rw [hinv.byte_entries t (hb t ht)]
      rfl
    have hpres := encodeLoop_pres hinv.good (utf8Encode cps).length (utf8Encode cps) hdom
    rw [← htoks]
    refine ⟨hpres.2, ?_⟩
    have hvne : st.vocab ≠ [] := ne_nil_of_alookup_some (hinv.byte_entries 0 (by omega))
    rw [decode_ok hvne hpres.2]
    rfl

/-- Witness for C10 at a concrete trained tokenizer and input. -/
theorem claim10_witness :
    (∀ t ∈ [256, 99], (alookup (byteVocab ++ [(256, [97, 98])]) t).isSome) ∧
    isOkE (decode (byteVocab ++ [(256, [97, 98])]) [256, 99]) = true :=
  claim10_encode_in_vocab [97, 98, 97, 98] [97, 98, 99] 257 (by omega) (by decide) (by decide)
    ⟨byteVocab ++ [(256, [97, 98])], [((97, 98), 256)], [256, 256]⟩ rfl [256, 99] rfl

end BPETok
